import Mathlib

/-!
Verification of the uastar sequential pathway solver
(`src/pathway/CPU-solver.cpp`) and the pathway driver
(`src/pathway/pathway.cpp`).

The solver works on an 8-connected grid whose step costs are 1 (axial
moves) and √2 (diagonal moves).  Every cost that arises during a query is
therefore of the form `a + b·√2` with `a b : ℕ`; we represent such values
exactly by the pair `(a, b)` and interpret them in `ℝ`.  The float
comparisons of the C++ code are modelled by the exact order on these
values, decided with integer arithmetic.
-/

/-- Exact cost value `a + b * √2`. The C++ code stores these as `float`;
we model them exactly. -/
structure Cost where
  a : ℕ
  b : ℕ
deriving DecidableEq, Repr

namespace Cost

def add (c d : Cost) : Cost := ⟨c.a + d.a, c.b + d.b⟩

instance : Add Cost := ⟨Cost.add⟩

instance : Zero Cost := ⟨⟨0, 0⟩⟩

/-- Real value of a cost. -/
noncomputable def toReal (c : Cost) : ℝ := (c.a : ℝ) + (c.b : ℝ) * Real.sqrt 2

/-- Decidable strict order on costs, agreeing with the order of their real
values (proved below).  `c < d` iff `c.a - d.a < (d.b - c.b) * √2`. -/
def ltb (c d : Cost) : Bool :=
  let p : ℤ := (c.a : ℤ) - (d.a : ℤ)
  let q : ℤ := (d.b : ℤ) - (c.b : ℤ)
  if 0 ≤ q then decide (p < 0) || decide (p * p < 2 * (q * q))
  else decide (p < 0) && decide (2 * (q * q) < p * p)

end Cost

/-! ## Grid model

`pathway.hpp` (the grid helpers `toID`, `toXY`, `inrange` and the
direction tables `DX`, `DY`, `COST`, `SQRT2`) is not part of the provided
sources; only its callers are.  The helpers below follow the spec:
cell id is `y·W + x`, `in_range` is `0 ≤ x < W ∧ 0 ≤ y < H`, direction
indices 0–3 are the four axial moves with cost 1 and indices 4–7 the four
diagonal moves with cost √2. -/

/-- Modelled from the spec: x-offsets of the 8 directions; indices 0–3 are
axial, 4–7 diagonal (`pathway.hpp` is missing from the sources). -/
def DX : ℕ → ℤ := fun i => [1, 0, -1, 0, 1, 1, -1, -1].getD i 0

/-- Modelled from the spec: y-offsets of the 8 directions. -/
def DY : ℕ → ℤ := fun i => [0, 1, 0, -1, 1, -1, 1, -1].getD i 0

/-- Modelled from the spec: step costs, 1 for the four axial directions and
√2 for the four diagonal ones. -/
def COST : ℕ → Cost := fun i => if i < 4 then ⟨1, 0⟩ else ⟨0, 1⟩

/-- A pathway problem instance: grid dimensions, the per-cell 8-bit
connectivity masks, the start cell and the target cell. -/
structure Grid where
  W : ℕ
  H : ℕ
  mask : ℕ → ℕ
  sx : ℤ
  sy : ℤ
  ex : ℤ
  ey : ℤ

namespace Grid

/-- `Pathway::inrange`. -/
def inrangeb (g : Grid) (x y : ℤ) : Bool :=
  decide (0 ≤ x) && decide (x < (g.W : ℤ)) && decide (0 ≤ y) && decide (y < (g.H : ℤ))

/-- `Pathway::toID`: cell id is `y*W + x`. -/
def toID (g : Grid) (x y : ℤ) : ℕ := (y * (g.W : ℤ) + x).toNat

/-- `Pathway::toXY` / `Pathway::toVec`: `x = id % W`, `y = id / W`. -/
def toXY (g : Grid) (id : ℕ) : ℤ × ℤ := ((id % g.W : ℕ), (id / g.W : ℕ))

/-- The start cell id. -/
def sID (g : Grid) : ℕ := g.toID g.sx g.sy

/-- The target cell id (`targetID` in `CPUPathwaySolver::initialize`). -/
def tID (g : Grid) : ℕ := g.toID g.ex g.ey

end Grid

/-- Octile distance built from the two coordinate distances `dx`, `dy`:
`min dx dy * √2 + |dx - dy|`. -/
def octile (dx dy : ℕ) : Cost := ⟨((dx : ℤ) - (dy : ℤ)).natAbs, min dx dy⟩

/-- The heuristic part of `CPUPathwaySolver::computeFValue`:
octile distance from cell `id` to the target. -/
def Grid.hOct (g : Grid) (id : ℕ) : Cost :=
  octile ((g.toXY id).1 - g.ex).natAbs ((g.toXY id).2 - g.ey).natAbs

/-- `CPUPathwaySolver::computeFValue`: `f = dist + h`. -/
def computeFValue (g : Grid) (dist : Cost) (id : ℕ) : Cost := dist + g.hOct id

/-! ## Solver state (`node_t`, `globalList`, `closeList`, `openList`) -/

/-- `node_t` without its `id` field: the id is the key of `globalList`.
`birth` records the creation rank of the record (creation order of the
`new node_t(...)` allocations); the C++ record carries this information
implicitly as its allocation time. -/
structure NodeR where
  dist : Cost
  prev : Option ℕ
  birth : ℕ
deriving DecidableEq, Repr

/-- The mutable state of `CPUPathwaySolver`: the global node table, the
number of records created so far, the closed set and the open list
(entries are `(f, id)`; the C++ entries `(f, node_t*)` point at the record
keyed by that id). -/
structure St where
  global : ℕ → Option NodeR
  births : ℕ
  closed : List ℕ
  openL : List (Cost × ℕ)

/-- Extract a minimum-`f` entry of the open list (the `priority_queue`
`top`/`pop` pair), returning it together with the remaining entries.
Among equal `f` values the entry pushed most recently is preferred; the
C++ heap breaks such ties by comparing node addresses, and every claim
proved below at a concrete input only involves strict comparisons, so the
tie order is immaterial there. -/
def popMin : List (Cost × ℕ) → Option ((Cost × ℕ) × List (Cost × ℕ))
  | [] => none
  | e :: rest =>
    match popMin rest with
    | none => some (e, [])
    | some (e', rest') =>
      if Cost.ltb e'.1 e.1 then some (e', e :: rest') else some (e, rest)

/-- The inner `do { node = top; pop; } while (closeList.count(node->id))`
loop of `CPUPathwaySolver::solve`.  Returns the first extracted entry
whose cell is not closed, together with the remaining open list.  `none`
means the loop called `top()` on an empty heap, which in the C++ code is
undefined behaviour.  The fuel argument is called with the length of the
list and never runs out (each extraction removes one entry). -/
def popLoop (closed : List ℕ) : ℕ → List (Cost × ℕ) → Option ((Cost × ℕ) × List (Cost × ℕ))
  | 0, _ => none
  | fuel + 1, l =>
    match popMin l with
    | none => none
    | some (e, rest) => if e.2 ∈ closed then popLoop closed fuel rest else some (e, rest)

/-- The guard chain of the expansion loop body: bit `i` of the mask of `u`
must be set, and the stepped-to coordinates must be in range; the result
is the neighbour's cell id.  (Directions stop at 8 because the loop is
`for (int i = 0; i < 8; ++i)`.) -/
def edgeTo (g : Grid) (u : ℕ) (i : ℕ) : Option ℕ :=
  if i < 8 && (g.mask u).testBit i then
    let x := (g.toXY u).1 + DX i
    let y := (g.toXY u).2 + DY i
    if g.inrangeb x y then some (g.toID x y) else none
  else none

/-- One iteration of the `for (int i = 0; i < 8; ++i)` expansion loop of
`CPUPathwaySolver::solve`: relax the edge of direction `i` out of `uid`.
A fresh neighbour is inserted into `globalList` with the expanding node as
predecessor; a known neighbour with a larger `dist` gets its `dist`
lowered and a new heap entry pushed — its `prev` field is left as it is,
exactly as in the source. -/
def relaxEdge (g : Grid) (uid : ℕ) (st : St) (i : ℕ) : St :=
  match edgeTo g uid i with
  | none => st
  | some nid =>
    match st.global uid with
    | none => st
    | some unode =>
      let dist := unode.dist + COST i
      match st.global nid with
      | none =>
        let nnode : NodeR := ⟨dist, some uid, st.births⟩
        { st with
          global := fun v => if v = nid then some nnode else st.global v
          births := st.births + 1
          openL := (computeFValue g dist nid, nid) :: st.openL }
      | some onode =>
        if Cost.ltb dist onode.dist then
          { st with
            global := fun v => if v = nid then some ⟨dist, onode.prev, onode.birth⟩ else st.global v
            openL := (computeFValue g dist nid, nid) :: st.openL }
        else st

/-- The whole expansion loop: directions 0 to 7 in order. -/
def expand (g : Grid) (uid : ℕ) (st : St) : St :=
  (List.range 8).foldl (relaxEdge g uid) st

/-- The path reconstruction loop `while (node) { push id; node = prev; }`.
The walk follows `prev` links through the global table; the fuel never
runs out because `birth` strictly decreases along `prev` links (proved
below). -/
def rebuildIds (global : ℕ → Option NodeR) : ℕ → Option ℕ → List ℕ
  | _, none => []
  | 0, some _ => []
  | fuel + 1, some v =>
    v :: (match global v with
          | none => []
          | some n => rebuildIds global fuel n.prev)

/-- Result of `CPUPathwaySolver::solve`:
* `ok (some (optimal, solution))` — returned `true`, wrote `*optimal` and
  `*solution` (the solution as coordinates, start first);
* `ok none` — returned `false` (open list exhausted);
* `ub` — the inner pop loop called `top()` on an empty heap (undefined
  behaviour in the C++ code);
* `stuck` — an open entry without a global record (cannot happen);
* `fuelout` — the outer fuel ran out (cannot happen with fuel `W*H+1`). -/
inductive Res where
  | ok : Option (Cost × List (ℤ × ℤ)) → Res
  | ub : Res
  | stuck : Res
  | fuelout : Res
deriving DecidableEq, Repr

/-- The outer `while (!openList.empty())` loop of
`CPUPathwaySolver::solve`, returning the result together with the final
solver state. -/
def loopA (g : Grid) : ℕ → St → Res × St
  | 0, st => (.fuelout, st)
  | fuel + 1, st =>
    if st.openL.isEmpty then (.ok none, st)
    else
      match popLoop st.closed st.openL.length st.openL with
      | none => (.ub, st)
      | some (e, rest) =>
        let st1 : St := { st with openL := rest, closed := e.2 :: st.closed }
        match st.global e.2 with
        | none => (.stuck, st1)
        | some node =>
          if e.2 = g.tID then
            (.ok (some (node.dist,
              ((rebuildIds st1.global st1.births (some e.2)).reverse.map (g.toXY ·)))), st1)
          else loopA g fuel (expand g e.2 st1)

/-- `CPUPathwaySolver::initialize`: clear everything, create the start
node with `dist = 0` and no predecessor, push it with `f = computeFValue`. -/
def initState (g : Grid) : St :=
  { global := fun v => if v = g.sID then some ⟨⟨0, 0⟩, none, 0⟩ else none
    births := 1
    closed := []
    openL := [(computeFValue g ⟨0, 0⟩ g.sID, g.sID)] }

/-- `initialize()` followed by `solve(&optimal, &solution)`, keeping the
final state.  The outer fuel `W*H + 1` is enough because every completed
iteration closes a previously unclosed cell id `< W*H`. -/
def solveFull (g : Grid) : Res × St := loopA g (g.W * g.H + 1) (initState g)

/-- The observable behaviour of `initialize(); solve(...)`. -/
def solveG (g : Grid) : Res := (solveFull g).1

/-! ## Paths in the grid (specification side) -/

/-- `Reaches g s v c`: there is a walk from `s` to `v` along enabled
in-range edges whose step costs sum to `c`.  Walks are extended at the
end, which matches how the solver discovers cells. -/
inductive Reaches (g : Grid) (s : ℕ) : ℕ → Cost → Prop where
  | refl : Reaches g s s ⟨0, 0⟩
  | snoc {u v : ℕ} {c : Cost} {i : ℕ} :
      Reaches g s u c → edgeTo g u i = some v → Reaches g s v (c + COST i)

/-- Step cost between two coordinate cells: 1 for an axial 8-neighbour
step, √2 for a diagonal one (0 for anything else; only used on actual
neighbour steps). -/
def stepCostCoords (p q : ℤ × ℤ) : Cost :=
  let dx := (q.1 - p.1).natAbs
  let dy := (q.2 - p.2).natAbs
  if dx + dy = 1 then ⟨1, 0⟩ else if dx = 1 ∧ dy = 1 then ⟨0, 1⟩ else ⟨0, 0⟩

/-- Sum of the step costs along a coordinate path. -/
def pathCostCoords : List (ℤ × ℤ) → Cost
  | [] => ⟨0, 0⟩
  | [_] => ⟨0, 0⟩
  | p :: q :: rest => stepCostCoords p q + pathCostCoords (q :: rest)

/-! ## Driver (`Pathway::output`) and configuration (`Pathway::Pathway`) -/

/-- `Pathway::output` as a function of the recorded solver outcomes.
`feq` models `float_equal` (from the missing `utils.hpp`): comparison of
the two optimal costs up to the floating-point tolerance.  The returned
`Bool` is the function's return value: `false` declares a cross-solver
mismatch. -/
def pathwayOutput (feq : ℝ → ℝ → Bool) (cpuSolved gpuSolved cpuSuccessful gpuSuccessful : Bool)
    (cpuOptimal gpuOptimal : ℝ) : Bool :=
  if cpuSolved && gpuSolved then
    if cpuSuccessful != gpuSuccessful then false
    else if !(feq cpuOptimal gpuOptimal) then false
    else true
  else true

/-- `Pathway::Pathway` configuration handling: the constructor calls
`help()` (a fatal configuration error, modelled as `none`) exactly when
the `width` or `height` option is absent; otherwise it stores the two
values unchecked. -/
def pathwayCtor (width height : Option ℤ) : Option (ℤ × ℤ) :=
  match width, height with
  | some w, some h => some (w, h)
  | _, _ => none

/-! ## Concrete instances -/

/-- 1×1 grid with start = target = (0,0) (scenario S4). -/
def grid1 : Grid :=
  { W := 1, H := 1, mask := fun _ => 0, sx := 0, sy := 0, ex := 0, ey := 0 }

/-- 3×6 grid exhibiting the missing predecessor update.  Enabled edges
(start `(0,0)`, target `(1,5)`):
`(0,0)→(1,1)` and `(0,0)→(1,0)` out of the start, `(1,1)→(2,0)`,
`(1,0)→(2,0)`, then the chain `(2,0)→(2,1)→(2,2)→(2,3)→(2,4)→(1,5)`.
The cell `(2,0)` is first discovered through `(1,1)` with `g = 2√2` and
later relaxed through `(1,0)` to `g = 2`, but its predecessor stays
`(1,1)`. -/
def gridPrevBug : Grid :=
  { W := 3, H := 6
    mask := fun id => [17, 1, 2, 0, 32, 2, 0, 0, 2, 0, 0, 2, 0, 0, 64, 0, 0, 0].getD id 0
    sx := 0, sy := 0, ex := 1, ey := 5 }

/-- The same grid with the chain cut behind `(2,0)`: the target is
unreachable, and after `(2,0)` is closed the open list holds only its one
stale duplicate entry. -/
def gridStale : Grid :=
  { W := 3, H := 6
    mask := fun id => [17, 1, 0, 0, 32, 0, 0, 0, 0, 0, 0, 0, 0, 0, 0, 0, 0, 0].getD id 0
    sx := 0, sy := 0, ex := 1, ey := 5 }

/-! ## Invariants of the solver state -/

/-- Structural invariants maintained by the solver loop. -/
structure InvCore (g : Grid) (st : St) : Prop where
  /-- The start record exists and keeps `dist = 0`. -/
  start_mem : ∃ n, st.global g.sID = some n ∧ n.dist = ⟨0, 0⟩
  /-- The domain of the global table: `births` distinct cell ids, all in
  range. -/
  keys : ∃ l : List ℕ, l.Nodup ∧ (∀ v, (st.global v).isSome ↔ v ∈ l) ∧
    l.length = st.births ∧ ∀ v ∈ l, v < g.W * g.H
  /-- Every recorded `dist` is realised by an actual walk from the start. -/
  dist_path : ∀ v n, st.global v = some n → Reaches g g.sID v n.dist
  /-- Closed cells have records. -/
  closed_rec : ∀ u ∈ st.closed, (st.global u).isSome
  closed_nodup : st.closed.Nodup
  /-- Every open entry points at a record whose `f` is at most the entry's
  frozen `f`. -/
  open_rec : ∀ e ∈ st.openL, ∃ n, st.global e.2 = some n ∧
    (computeFValue g n.dist e.2).toReal ≤ e.1.toReal
  /-- Every unclosed record still has a matching entry in the open list. -/
  open_cover : ∀ v n, st.global v = some n → v ∉ st.closed →
    (computeFValue g n.dist v, v) ∈ st.openL
  /-- Closed records are optimal: no walk from the start beats them. -/
  closed_min : ∀ u ∈ st.closed, ∀ n, st.global u = some n →
    ∀ c, Reaches g g.sID u c → n.dist.toReal ≤ c.toReal
  birth_lt : ∀ v n, st.global v = some n → n.birth < st.births
  /-- Predecessor links point at strictly earlier records. -/
  prev_ok : ∀ v n, st.global v = some n → ∀ p, n.prev = some p →
    ∃ m, st.global p = some m ∧ m.birth < n.birth
  start_prev : ∀ n, st.global g.sID = some n → n.prev = none

/-- The cells of `S` have had all their out-edges relaxed. -/
def Frontier (g : Grid) (st : St) (S : List ℕ) : Prop :=
  ∀ u ∈ S, ∀ nu, st.global u = some nu → ∀ i v, edgeTo g u i = some v →
    ∃ nv, st.global v = some nv ∧ nv.dist.toReal ≤ (nu.dist + COST i).toReal

/-- Full loop invariant. -/
def Good (g : Grid) (st : St) : Prop := InvCore g st ∧ Frontier g st st.closed

/-! # Theorems

## The exact cost order -/

namespace Cost

theorem toReal_mk (a b : ℕ) : (Cost.mk a b).toReal = (a : ℝ) + (b : ℝ) * Real.sqrt 2 := rfl

theorem toReal_add (c d : Cost) : (c + d).toReal = c.toReal + d.toReal := by
  show (Cost.add c d).toReal = _
  simp only [Cost.add, toReal]
  push_cast
  ring

theorem toReal_zero : (Cost.mk 0 0).toReal = 0 := by
  simp [toReal]

theorem toReal_nonneg (c : Cost) : 0 ≤ c.toReal := by
  have h2 : 0 ≤ Real.sqrt 2 := Real.sqrt_nonneg 2
  have ha : (0 : ℝ) ≤ (c.a : ℝ) := Nat.cast_nonneg _
  have hb : (0 : ℝ) ≤ (c.b : ℝ) := Nat.cast_nonneg _
  have := mul_nonneg hb h2
  simp only [toReal]
  linarith

theorem sq_sqrt2 : Real.sqrt 2 * Real.sqrt 2 = 2 := by
  calc Real.sqrt 2 * Real.sqrt 2 = Real.sqrt 2 ^ 2 := by ring
    _ = 2 := Real.sq_sqrt (by norm_num)

theorem one_le_sqrt2 : (1 : ℝ) ≤ Real.sqrt 2 := by
  nlinarith [sq_sqrt2, Real.sqrt_nonneg 2]

theorem sqrt2_le_two : Real.sqrt 2 ≤ 2 := by
  nlinarith [sq_sqrt2, Real.sqrt_nonneg 2]

theorem int_lt_mul_sqrt2 (p q : ℤ) (hp : 0 ≤ p) (hq : 0 ≤ q) :
    ((p : ℝ) < (q : ℝ) * Real.sqrt 2 ↔ p * p < 2 * (q * q)) := by
  have hs : 0 ≤ Real.sqrt 2 := Real.sqrt_nonneg 2
  have hpr : (0 : ℝ) ≤ (p : ℝ) := by exact_mod_cast hp
  have hqr : (0 : ℝ) ≤ (q : ℝ) := by exact_mod_cast hq
  have hqq : ((q : ℝ) * Real.sqrt 2) * ((q : ℝ) * Real.sqrt 2) = 2 * ((q : ℝ) * q) := by
    calc ((q : ℝ) * Real.sqrt 2) * ((q : ℝ) * Real.sqrt 2)
        = (Real.sqrt 2 * Real.sqrt 2) * ((q : ℝ) * q) := by ring
      _ = 2 * ((q : ℝ) * q) := by rw [sq_sqrt2]
  constructor
  · intro h
    have : (p : ℝ) * p < 2 * ((q : ℝ) * q) := by nlinarith
    exact_mod_cast this
  · intro h
    have h' : (p : ℝ) * p < 2 * ((q : ℝ) * q) := by exact_mod_cast h
    by_contra hc
    push_neg at hc
    have := mul_self_le_mul_self (mul_nonneg hqr hs) hc
    nlinarith

theorem mul_sqrt2_lt_int (p q : ℤ) (hp : 0 ≤ p) (hq : 0 ≤ q) :
    ((q : ℝ) * Real.sqrt 2 < p ↔ 2 * (q * q) < p * p) := by
  have hs : 0 ≤ Real.sqrt 2 := Real.sqrt_nonneg 2
  have hpr : (0 : ℝ) ≤ (p : ℝ) := by exact_mod_cast hp
  have hqr : (0 : ℝ) ≤ (q : ℝ) := by exact_mod_cast hq
  have hqq : ((q : ℝ) * Real.sqrt 2) * ((q : ℝ) * Real.sqrt 2) = 2 * ((q : ℝ) * q) := by
    calc ((q : ℝ) * Real.sqrt 2) * ((q : ℝ) * Real.sqrt 2)
        = (Real.sqrt 2 * Real.sqrt 2) * ((q : ℝ) * q) := by ring
      _ = 2 * ((q : ℝ) * q) := by rw [sq_sqrt2]
  constructor
  · intro h
    have hlt := mul_self_lt_mul_self (mul_nonneg hqr hs) h
    have : 2 * ((q : ℝ) * q) < p * p := by linarith
    exact_mod_cast this
  · intro h
    have h' : 2 * ((q : ℝ) * q) < (p : ℝ) * p := by exact_mod_cast h
    by_contra hc
    push_neg at hc
    have := mul_self_le_mul_self hpr hc
    nlinarith

theorem ltb_iff (c d : Cost) : ltb c d = true ↔ c.toReal < d.toReal := by
  have hs : 0 ≤ Real.sqrt 2 := Real.sqrt_nonneg 2
  have hkey : (c.toReal < d.toReal ↔
      ((((c.a : ℤ) - d.a : ℤ)) : ℝ) < ((((d.b : ℤ) - c.b : ℤ)) : ℝ) * Real.sqrt 2) := by
    simp only [toReal]
    push_cast
    constructor <;> intro h <;> nlinarith
  rw [hkey]
  by_cases hq0 : (0 : ℤ) ≤ (d.b : ℤ) - c.b
  · simp only [ltb, if_pos hq0, Bool.or_eq_true, decide_eq_true_eq]
    by_cases hp0 : ((c.a : ℤ) - d.a) < 0
    · constructor
      · intro _
        have hqr : (0 : ℝ) ≤ ((((d.b : ℤ) - c.b : ℤ)) : ℝ) := by exact_mod_cast hq0
        have hpr : (((((c.a : ℤ) - d.a : ℤ))) : ℝ) < 0 := by exact_mod_cast hp0
        nlinarith [mul_nonneg hqr hs]
      · intro _
        exact Or.inl hp0
    · push_neg at hp0
      rw [int_lt_mul_sqrt2 _ _ hp0 hq0]
      constructor
      · rintro (h | h)
        · exact absurd h (not_lt.mpr hp0)
        · exact h
      · intro h
        exact Or.inr h
  · push_neg at hq0
    simp only [ltb, if_neg (not_le.mpr hq0), Bool.and_eq_true, decide_eq_true_eq]
    have hY : ((((d.b : ℤ) - c.b : ℤ)) : ℝ) < 0 := by exact_mod_cast hq0
    constructor
    · rintro ⟨h1, h2⟩
      have hneg := mul_sqrt2_lt_int (-(((c.a : ℤ) - d.a))) (-(((d.b : ℤ) - c.b)))
        (by omega) (by omega)
      rw [Int.cast_neg, Int.cast_neg, neg_mul_neg, neg_mul_neg] at hneg
      have h3 := hneg.mpr h2
      linarith
    · intro h
      have hy2 : (0 : ℝ) ≤ (-((((d.b : ℤ) - c.b : ℤ)) : ℝ)) * Real.sqrt 2 :=
        mul_nonneg (by linarith) hs
      have hX : (((((c.a : ℤ) - d.a : ℤ))) : ℝ) < 0 := by linarith
      have h1 : ((c.a : ℤ) - d.a) < 0 := by exact_mod_cast hX
      have hneg := mul_sqrt2_lt_int (-(((c.a : ℤ) - d.a))) (-(((d.b : ℤ) - c.b)))
        (by omega) (by omega)
      rw [Int.cast_neg, Int.cast_neg, neg_mul_neg, neg_mul_neg] at hneg
      exact ⟨h1, hneg.mp (by linarith)⟩

theorem le_of_ltb_false {c d : Cost} (h : ltb c d = false) : d.toReal ≤ c.toReal := by
  by_contra hc
  push_neg at hc
  rw [← ltb_iff] at hc
  rw [h] at hc
  exact Bool.false_ne_true hc

theorem lt_of_ltb_true {c d : Cost} (h : ltb c d = true) : c.toReal < d.toReal :=
  (ltb_iff c d).mp h

theorem ltb_zero (c : Cost) : ltb c ⟨0, 0⟩ = false := by
  cases hb : ltb c ⟨0, 0⟩
  · rfl
  · exfalso
    have hlt := lt_of_ltb_true hb
    have h0 := toReal_nonneg c
    rw [toReal_zero] at hlt
    linarith

end Cost

/-! ## Grid coordinate lemmas -/

namespace Grid

theorem inrangeb_iff (g : Grid) (x y : ℤ) :
    g.inrangeb x y = true ↔ 0 ≤ x ∧ x < (g.W : ℤ) ∧ 0 ≤ y ∧ y < (g.H : ℤ) := by
  simp [inrangeb, and_assoc]

theorem toID_lt (g : Grid) {x y : ℤ} (h : g.inrangeb x y = true) : g.toID x y < g.W * g.H := by
  rw [inrangeb_iff] at h
  obtain ⟨hx0, hxW, hy0, hyH⟩ := h
  have hW : (0 : ℤ) < g.W := by omega
  simp only [toID]
  have h1 : y * (g.W : ℤ) + x < (g.W : ℤ) * g.H := by
    have : y * (g.W : ℤ) ≤ ((g.H : ℤ) - 1) * g.W := by
      apply mul_le_mul_of_nonneg_right _ (by omega)
      omega
    nlinarith
  have hcast : ((g.W * g.H : ℕ) : ℤ) = (g.W : ℤ) * (g.H : ℤ) := by push_cast; ring
  have hf : 0 ≤ y * (g.W : ℤ) := mul_nonneg hy0 (by omega)
  omega

theorem toXY_toID (g : Grid) (hW : 0 < g.W) {x y : ℤ} (h : g.inrangeb x y = true) :
    g.toXY (g.toID x y) = (x, y) := by
  rw [inrangeb_iff] at h
  obtain ⟨hx0, hxW, hy0, hyH⟩ := h
  simp only [toID, toXY]
  have hy : ((y.toNat : ℕ) : ℤ) = y := Int.toNat_of_nonneg hy0
  have hyW : ((g.W * y.toNat : ℕ) : ℤ) = y * (g.W : ℤ) := by push_cast [hy]; ring
  have hxy : (y * (g.W : ℤ) + x).toNat = x.toNat + g.W * y.toNat := by omega
  rw [hxy]
  simp only [Prod.mk.injEq]
  constructor
  · have h1 : (x.toNat + g.W * y.toNat) % g.W = x.toNat % g.W := Nat.add_mul_mod_self_left _ _ _
    have h2 : x.toNat % g.W = x.toNat := Nat.mod_eq_of_lt (by omega)
    simp only [h1, h2]
    omega
  · have h1 : (x.toNat + g.W * y.toNat) / g.W = x.toNat / g.W + y.toNat :=
      Nat.add_mul_div_left _ _ hW
    have h2 : x.toNat / g.W = 0 := Nat.div_eq_of_lt (by omega)
    simp only [h1, h2]
    omega

theorem toID_toXY (g : Grid) (hW : 0 < g.W) {id : ℕ} (h : id < g.W * g.H) :
    g.toID (g.toXY id).1 (g.toXY id).2 = id := by
  simp only [toID, toXY]
  have h1 : id / g.W * g.W + id % g.W = id := Nat.div_add_mod' id g.W
  have hcast : ((id / g.W * g.W : ℕ) : ℤ) = ((id / g.W : ℕ) : ℤ) * (g.W : ℤ) := by
    push_cast
    ring
  omega

theorem toXY_inrangeb (g : Grid) (hW : 0 < g.W) {id : ℕ} (h : id < g.W * g.H) :
    g.inrangeb (g.toXY id).1 (g.toXY id).2 = true := by
  rw [inrangeb_iff]
  simp only [toXY]
  have h1 : id % g.W < g.W := Nat.mod_lt _ hW
  have h2 : id / g.W < g.H := by
    apply Nat.div_lt_of_lt_mul
    omega
  refine ⟨by positivity, by exact_mod_cast h1, by positivity, by exact_mod_cast h2⟩

end Grid

/-! ## Edge lemmas -/

theorem edgeTo_lt_eight {g : Grid} {u i v : ℕ} (h : edgeTo g u i = some v) : i < 8 := by
  by_contra hc
  simp only [edgeTo] at h
  rw [if_neg] at h
  · exact Option.noConfusion h
  · simp only [Bool.and_eq_true, decide_eq_true_eq]
    rintro ⟨h8, _⟩
    omega

theorem edgeTo_dest {g : Grid} {u i v : ℕ} (h : edgeTo g u i = some v) :
    g.inrangeb ((g.toXY u).1 + DX i) ((g.toXY u).2 + DY i) = true ∧
    v = g.toID ((g.toXY u).1 + DX i) ((g.toXY u).2 + DY i) := by
  simp only [edgeTo] at h
  by_cases hb : (i < 8 && (g.mask u).testBit i) = true
  · rw [if_pos hb] at h
    by_cases hr : g.inrangeb ((g.toXY u).1 + DX i) ((g.toXY u).2 + DY i) = true
    · rw [if_pos hr] at h
      exact ⟨hr, (Option.some_injective _ h).symm⟩
    · rw [if_neg hr] at h
      exact Option.noConfusion h
  · rw [if_neg hb] at h
    exact Option.noConfusion h

theorem edgeTo_valid {g : Grid} {u i v : ℕ} (h : edgeTo g u i = some v) : v < g.W * g.H := by
  obtain ⟨hr, hv⟩ := edgeTo_dest h
  rw [hv]
  exact g.toID_lt hr

theorem edgeTo_toXY {g : Grid} (hW : 0 < g.W) {u i v : ℕ} (h : edgeTo g u i = some v) :
    g.toXY v = ((g.toXY u).1 + DX i, (g.toXY u).2 + DY i) := by
  obtain ⟨hr, hv⟩ := edgeTo_dest h
  rw [hv]
  exact g.toXY_toID hW hr

theorem dxdy_ne_zero {i : ℕ} (h : i < 8) : ¬(DX i = 0 ∧ DY i = 0) := by
  interval_cases i <;> simp [DX, DY]

theorem edgeTo_ne {g : Grid} (hW : 0 < g.W) {u i v : ℕ} (hu : u < g.W * g.H)
    (h : edgeTo g u i = some v) : v ≠ u := by
  intro hvu
  subst hvu
  have h8 := edgeTo_lt_eight h
  have hxy := edgeTo_toXY hW h
  have hne := dxdy_ne_zero h8
  have h1 : (g.toXY v).1 = (g.toXY v).1 + DX i := congrArg Prod.fst hxy
  have h2 : (g.toXY v).2 = (g.toXY v).2 + DY i := congrArg Prod.snd hxy
  exact hne ⟨by omega, by omega⟩

/-! ## Octile distance: consistency -/

theorem octile_toReal (p q : ℕ) :
    (octile p q).toReal = |(p : ℝ) - q| + min (p : ℝ) q * Real.sqrt 2 := by
  simp only [octile, Cost.toReal]
  have h1 : ((((p : ℤ) - q).natAbs : ℕ) : ℝ) = |(p : ℝ) - q| := by
    rw [Int.cast_natAbs]
    push_cast
    ring_nf
  have h2 : ((min p q : ℕ) : ℝ) = min (p : ℝ) q := Nat.cast_min p q
  rw [h1, h2]

theorem octile_comm (p q : ℕ) : octile p q = octile q p := by
  simp only [octile, Cost.mk.injEq]
  exact ⟨by omega, min_comm p q⟩

theorem octR_step_axial (a b a' : ℝ) (hstep : a' = a + 1 ∨ a = a' + 1) :
    |a - b| + min a b * Real.sqrt 2 ≤ 1 + (|a' - b| + min a' b * Real.sqrt 2) := by
  have hs0 : 0 ≤ Real.sqrt 2 := Real.sqrt_nonneg 2
  have hs1 : 1 ≤ Real.sqrt 2 := Cost.one_le_sqrt2
  have hs2 : Real.sqrt 2 ≤ 2 := Cost.sqrt2_le_two
  have hm : min a b + max a b = a + b := min_add_max a b
  have hM : max a b - min a b = |a - b| := by rw [max_sub_min_eq_abs, abs_sub_comm]
  have hm' : min a' b + max a' b = a' + b := min_add_max a' b
  have hM' : max a' b - min a' b = |a' - b| := by rw [max_sub_min_eq_abs, abs_sub_comm]
  have habs : |a - b| - |a' - b| ≤ |a - a'| := by
    have h := abs_sub_abs_le_abs_sub (a - b) (a' - b)
    have he : a - b - (a' - b) = a - a' := by ring
    rwa [he] at h
  have habs2 : |a' - b| - |a - b| ≤ |a - a'| := by
    have h := abs_sub_abs_le_abs_sub (a' - b) (a - b)
    have he : a' - b - (a - b) = -(a - a') := by ring
    rwa [he, abs_neg] at h
  have hmin : min a b = (a + b - |a - b|) / 2 := by linarith
  have hmin' : min a' b = (a' + b - |a' - b|) / 2 := by linarith
  rw [hmin, hmin']
  rcases hstep with rfl | rfl
  · have h1 : |a - (a + 1)| = 1 := by
      norm_num
    rw [h1] at habs habs2
    nlinarith [mul_nonneg (show (0:ℝ) ≤ (|a - b| - |a + 1 - b|) + 1 by linarith) hs0,
      mul_nonneg (show (0:ℝ) ≤ 1 - (|a - b| - |a + 1 - b|) by linarith)
        (show (0:ℝ) ≤ 1 - Real.sqrt 2 / 2 by linarith)]
  · have h1 : |a' + 1 - a'| = 1 := by
      norm_num
    rw [h1] at habs habs2
    nlinarith [mul_nonneg (show (0:ℝ) ≤ (|a' + 1 - b| - |a' - b|) + 1 by linarith) hs0,
      mul_nonneg (show (0:ℝ) ≤ 1 - (|a' + 1 - b| - |a' - b|) by linarith)
        (show (0:ℝ) ≤ 1 - Real.sqrt 2 / 2 by linarith)]

theorem octR_step_diag (a b a' b' : ℝ) (hsa : a' = a + 1 ∨ a = a' + 1)
    (hsb : b' = b + 1 ∨ b = b' + 1) :
    |a - b| + min a b * Real.sqrt 2 ≤
      Real.sqrt 2 + (|a' - b'| + min a' b' * Real.sqrt 2) := by
  have hs0 : 0 ≤ Real.sqrt 2 := Real.sqrt_nonneg 2
  have hs1 : 1 ≤ Real.sqrt 2 := Cost.one_le_sqrt2
  have hs2 : Real.sqrt 2 ≤ 2 := Cost.sqrt2_le_two
  have hm : min a b + max a b = a + b := min_add_max a b
  have hM : max a b - min a b = |a - b| := by rw [max_sub_min_eq_abs, abs_sub_comm]
  have hm' : min a' b' + max a' b' = a' + b' := min_add_max a' b'
  have hM' : max a' b' - min a' b' = |a' - b'| := by rw [max_sub_min_eq_abs, abs_sub_comm]
  have habs : |a - b| - |a' - b'| ≤ |(a - a') - (b - b')| := by
    have h := abs_sub_abs_le_abs_sub (a - b) (a' - b')
    have he : a - b - (a' - b') = (a - a') - (b - b') := by ring
    rwa [he] at h
  have habs2 : |a' - b'| - |a - b| ≤ |(a - a') - (b - b')| := by
    have h := abs_sub_abs_le_abs_sub (a' - b') (a - b)
    have he : a' - b' - (a - b) = -((a - a') - (b - b')) := by ring
    rwa [he, abs_neg] at h
  have hmin : min a b = (a + b - |a - b|) / 2 := by linarith
  have hmin' : min a' b' = (a' + b' - |a' - b'|) / 2 := by linarith
  rw [hmin, hmin']
  rcases hsa with rfl | rfl <;> rcases hsb with rfl | rfl
  · have h1 : |(a - (a + 1)) - (b - (b + 1))| = 0 := by norm_num
    rw [h1] at habs habs2
    nlinarith
  · have h1 : |(a - (a + 1)) - (b' + 1 - b')| = 2 := by norm_num
    rw [h1] at habs habs2
    nlinarith [mul_nonneg (show (0:ℝ) ≤ 2 - (|a - (b' + 1)| - |a + 1 - b'|) by linarith)
      (show (0:ℝ) ≤ 1 - Real.sqrt 2 / 2 by linarith)]
  · have h1 : |(a' + 1 - a') - (b - (b + 1))| = 2 := by norm_num
    rw [h1] at habs habs2
    nlinarith [mul_nonneg (show (0:ℝ) ≤ 2 - (|a' + 1 - b| - |a' - (b + 1)|) by linarith)
      (show (0:ℝ) ≤ 1 - Real.sqrt 2 / 2 by linarith)]
  · have h1 : |(a' + 1 - a') - (b' + 1 - b')| = 0 := by norm_num
    rw [h1] at habs habs2
    nlinarith [mul_nonneg (show (0:ℝ) ≤ 0 - (|a' + 1 - (b' + 1)| - |a' - b'|) by linarith)
      (show (0:ℝ) ≤ 1 - Real.sqrt 2 / 2 by linarith)]

theorem oct_ax1 (pu qu pv : ℕ) (hst : pv = pu + 1 ∨ pu = pv + 1) :
    (octile pu qu).toReal ≤ 1 + (octile pv qu).toReal := by
  rw [octile_toReal, octile_toReal]
  apply octR_step_axial
  rcases hst with h | h
  · left; exact_mod_cast congrArg (Nat.cast (R := ℝ)) h
  · right; exact_mod_cast congrArg (Nat.cast (R := ℝ)) h

theorem oct_ax2 (pu qu qv : ℕ) (hst : qv = qu + 1 ∨ qu = qv + 1) :
    (octile pu qu).toReal ≤ 1 + (octile pu qv).toReal := by
  rw [octile_comm pu qu, octile_comm pu qv]
  exact oct_ax1 qu pu qv hst

theorem oct_di (pu qu pv qv : ℕ) (hp : pv = pu + 1 ∨ pu = pv + 1)
    (hq : qv = qu + 1 ∨ qu = qv + 1) :
    (octile pu qu).toReal ≤ Real.sqrt 2 + (octile pv qv).toReal := by
  rw [octile_toReal, octile_toReal]
  apply octR_step_diag
  · rcases hp with h | h
    · left; exact_mod_cast congrArg (Nat.cast (R := ℝ)) h
    · right; exact_mod_cast congrArg (Nat.cast (R := ℝ)) h
  · rcases hq with h | h
    · left; exact_mod_cast congrArg (Nat.cast (R := ℝ)) h
    · right; exact_mod_cast congrArg (Nat.cast (R := ℝ)) h

theorem natD_step (x e d : ℤ) (hd : d = 1 ∨ d = -1) :
    ((x + d - e).natAbs = (x - e).natAbs + 1 ∨ (x - e).natAbs = (x + d - e).natAbs + 1) := by
  rcases hd with rfl | rfl <;> omega

theorem cost_toReal_axial {i : ℕ} (h : i < 4) : (COST i).toReal = 1 := by
  simp only [COST, if_pos h, Cost.toReal]
  norm_num

theorem cost_toReal_diag {i : ℕ} (h : ¬ i < 4) : (COST i).toReal = Real.sqrt 2 := by
  simp only [COST, if_neg h, Cost.toReal]
  norm_num

/-- Consistency of the octile heuristic along every enabled edge:
`h(u) ≤ cost(u,v) + h(v)`. -/
theorem hOct_consistent {g : Grid} (hW : 0 < g.W) {u i v : ℕ} (h : edgeTo g u i = some v) :
    (g.hOct u).toReal ≤ (COST i).toReal + (g.hOct v).toReal := by
  have h8 := edgeTo_lt_eight h
  have hxy := edgeTo_toXY hW h
  have hx : (g.toXY v).1 = (g.toXY u).1 + DX i := congrArg Prod.fst hxy
  have hy : (g.toXY v).2 = (g.toXY u).2 + DY i := congrArg Prod.snd hxy
  simp only [Grid.hOct]
  rw [hx, hy]
  have hone : i = 0 ∨ i = 1 ∨ i = 2 ∨ i = 3 ∨ i = 4 ∨ i = 5 ∨ i = 6 ∨ i = 7 := by omega
  clear h hxy h8 hx hy
  rcases hone with rfl | rfl | rfl | rfl | rfl | rfl | rfl | rfl
  · rw [cost_toReal_axial (by norm_num), show DX 0 = 1 from rfl, show DY 0 = 0 from rfl,
      add_zero]
    exact oct_ax1 _ _ _ (natD_step _ _ _ (Or.inl rfl))
  · rw [cost_toReal_axial (by norm_num), show DX 1 = 0 from rfl, show DY 1 = 1 from rfl,
      add_zero]
    exact oct_ax2 _ _ _ (natD_step _ _ _ (Or.inl rfl))
  · rw [cost_toReal_axial (by norm_num), show DX 2 = -1 from rfl, show DY 2 = 0 from rfl,
      add_zero]
    exact oct_ax1 _ _ _ (natD_step _ _ _ (Or.inr rfl))
  · rw [cost_toReal_axial (by norm_num), show DX 3 = 0 from rfl, show DY 3 = -1 from rfl,
      add_zero]
    exact oct_ax2 _ _ _ (natD_step _ _ _ (Or.inr rfl))
  · rw [cost_toReal_diag (by norm_num), show DX 4 = 1 from rfl, show DY 4 = 1 from rfl]
    exact oct_di _ _ _ _ (natD_step _ _ _ (Or.inl rfl)) (natD_step _ _ _ (Or.inl rfl))
  · rw [cost_toReal_diag (by norm_num), show DX 5 = 1 from rfl, show DY 5 = -1 from rfl]
    exact oct_di _ _ _ _ (natD_step _ _ _ (Or.inl rfl)) (natD_step _ _ _ (Or.inr rfl))
  · rw [cost_toReal_diag (by norm_num), show DX 6 = -1 from rfl, show DY 6 = 1 from rfl]
    exact oct_di _ _ _ _ (natD_step _ _ _ (Or.inr rfl)) (natD_step _ _ _ (Or.inl rfl))
  · rw [cost_toReal_diag (by norm_num), show DX 7 = -1 from rfl, show DY 7 = -1 from rfl]
    exact oct_di _ _ _ _ (natD_step _ _ _ (Or.inr rfl)) (natD_step _ _ _ (Or.inr rfl))

/-! ## Heuristic along paths: admissibility -/

theorem hOct_le_path {g : Grid} (hW : 0 < g.W) {s : ℕ} :
    ∀ {v : ℕ} {c : Cost}, Reaches g s v c →
      (g.hOct s).toReal ≤ c.toReal + (g.hOct v).toReal := by
  intro v c h
  induction h with
  | refl =>
    rw [Cost.toReal_zero]
    linarith
  | @snoc u v c i hr he ih =>
    have hc := hOct_consistent hW he
    rw [Cost.toReal_add]
    linarith

theorem hOct_tID {g : Grid} (hW : 0 < g.W) (ht : g.inrangeb g.ex g.ey = true) :
    g.hOct g.tID = ⟨0, 0⟩ := by
  have hxy := g.toXY_toID hW ht
  simp only [Grid.hOct, Grid.tID, hxy]
  simp [octile]

/-- Admissibility: the octile heuristic never exceeds the cost of any
walk to the target. -/
theorem hOct_admissible {g : Grid} (hW : 0 < g.W) (ht : g.inrangeb g.ex g.ey = true)
    {u : ℕ} {c : Cost} (h : Reaches g u g.tID c) : (g.hOct u).toReal ≤ c.toReal := by
  have := hOct_le_path hW h
  rw [hOct_tID hW ht, Cost.toReal_zero] at this
  linarith

/-! ## Open list extraction -/

theorem popMin_eq_none {l : List (Cost × ℕ)} : popMin l = none ↔ l = [] := by
  constructor
  · intro h
    cases l with
    | nil => rfl
    | cons e rest =>
      simp only [popMin] at h
      cases hr : popMin rest with
      | none =>
        simp only [hr] at h
        exact Option.noConfusion h
      | some p =>
        obtain ⟨e', rest'⟩ := p
        simp only [hr] at h
        split_ifs at h
  · rintro rfl
    rfl

theorem popMin_spec {l : List (Cost × ℕ)} {e : Cost × ℕ} {rest : List (Cost × ℕ)}
    (h : popMin l = some (e, rest)) :
    e ∈ l ∧ (∀ x ∈ rest, x ∈ l) ∧ (∀ x ∈ l, x = e ∨ x ∈ rest) ∧
      (∀ x ∈ l, e.1.toReal ≤ x.1.toReal) ∧ rest.length + 1 = l.length := by
  induction l generalizing e rest with
  | nil => exact Option.noConfusion h
  | cons a tl ih =>
    simp only [popMin] at h
    cases hr : popMin tl with
    | none =>
      have htl : tl = [] := popMin_eq_none.mp hr
      subst htl
      simp only [hr] at h
      obtain ⟨rfl, rfl⟩ : a = e ∧ ([] : List (Cost × ℕ)) = rest := by
        have := Option.some_injective _ h
        exact ⟨congrArg Prod.fst this, congrArg Prod.snd this⟩
      refine ⟨List.mem_cons_self _ _, by simp, by simp, ?_, by simp⟩
      intro x hx
      rcases List.mem_cons.mp hx with rfl | hx
      · exact le_rfl
      · simp at hx
    | some p =>
      obtain ⟨e', rest'⟩ := p
      simp only [hr] at h
      obtain ⟨he'm, hsub, hcase, hmin, hlen⟩ := ih hr
      by_cases hlt : Cost.ltb e'.1 a.1 = true
      · rw [if_pos hlt] at h
        obtain ⟨rfl, rfl⟩ : e' = e ∧ a :: rest' = rest := by
          have := Option.some_injective _ h
          exact ⟨congrArg Prod.fst this, congrArg Prod.snd this⟩
        have hlt' := Cost.lt_of_ltb_true hlt
        refine ⟨List.mem_cons_of_mem _ he'm, ?_, ?_, ?_, by simp [← hlen]⟩
        · intro x hx
          rcases List.mem_cons.mp hx with rfl | hx
          · exact List.mem_cons_self _ _
          · exact List.mem_cons_of_mem _ (hsub x hx)
        · intro x hx
          rcases List.mem_cons.mp hx with rfl | hx
          · exact Or.inr (List.mem_cons_self _ _)
          · rcases hcase x hx with rfl | hx'
            · exact Or.inl rfl
            · exact Or.inr (List.mem_cons_of_mem _ hx')
        · intro x hx
          rcases List.mem_cons.mp hx with rfl | hx
          · linarith
          · exact hmin x hx
      · rw [if_neg hlt] at h
        obtain ⟨rfl, rfl⟩ : a = e ∧ tl = rest := by
          have := Option.some_injective _ h
          exact ⟨congrArg Prod.fst this, congrArg Prod.snd this⟩
        have hb : Cost.ltb e'.1 a.1 = false := by
          cases hbb : Cost.ltb e'.1 a.1
          · rfl
          · exact absurd hbb hlt
        have hge := Cost.le_of_ltb_false hb
        refine ⟨List.mem_cons_self _ _, ?_, ?_, ?_, rfl⟩
        · intro x hx
          exact List.mem_cons_of_mem _ hx
        · intro x hx
          rcases List.mem_cons.mp hx with rfl | hx
          · exact Or.inl rfl
          · exact Or.inr hx
        · intro x hx
          rcases List.mem_cons.mp hx with rfl | hx
          · exact le_rfl
          · have := hmin x hx
            linarith

theorem popLoop_spec {closed : List ℕ} :
    ∀ {fuel : ℕ} {l : List (Cost × ℕ)} {e : Cost × ℕ} {rest : List (Cost × ℕ)},
    popLoop closed fuel l = some (e, rest) →
    e.2 ∉ closed ∧ e ∈ l ∧ (∀ x ∈ rest, x ∈ l) ∧
      (∀ x ∈ l, x.2 ∉ closed → (x = e ∨ x ∈ rest)) ∧
      (∀ x ∈ l, x.2 ∉ closed → e.1.toReal ≤ x.1.toReal) := by
  intro fuel
  induction fuel with
  | zero => intro l e rest h; exact Option.noConfusion h
  | succ fuel ih =>
    intro l e rest h
    simp only [popLoop] at h
    cases hm : popMin l with
    | none =>
      simp only [hm] at h
      exact Option.noConfusion h
    | some p =>
      obtain ⟨e0, r0⟩ := p
      simp only [hm] at h
      obtain ⟨he0m, hsub0, hcase0, hmin0, _⟩ := popMin_spec hm
      by_cases hc : e0.2 ∈ closed
      · rw [if_pos hc] at h
        obtain ⟨hec, hem, hsub, hcase, hmin⟩ := ih h
        refine ⟨hec, hsub0 _ hem, fun x hx => hsub0 _ (hsub x hx), ?_, ?_⟩
        · intro x hx hxc
          have hne : x ≠ e0 := fun hxe => hxc (hxe ▸ hc)
          rcases hcase0 x hx with rfl | hx0
          · exact absurd rfl hne
          · exact hcase x hx0 hxc
        · intro x hx hxc
          have hne : x ≠ e0 := fun hxe => hxc (hxe ▸ hc)
          rcases hcase0 x hx with rfl | hx0
          · exact absurd rfl hne
          · exact hmin x hx0 hxc
      · rw [if_neg hc] at h
        obtain ⟨rfl, rfl⟩ : e0 = e ∧ r0 = rest := by
          have := Option.some_injective _ h
          exact ⟨congrArg Prod.fst this, congrArg Prod.snd this⟩
        exact ⟨hc, he0m, hsub0, fun x hx _ => hcase0 x hx, fun x hx _ => hmin0 x hx⟩

theorem popLoop_isSome {closed : List ℕ} :
    ∀ {fuel : ℕ} {l : List (Cost × ℕ)}, (∃ x ∈ l, x.2 ∉ closed) → l.length ≤ fuel →
      ∃ p, popLoop closed fuel l = some p := by
  intro fuel
  induction fuel with
  | zero =>
    rintro l ⟨x, hx, _⟩ hf
    have : l = [] := List.length_eq_zero.mp (Nat.le_zero.mp hf)
    subst this
    simp at hx
  | succ fuel ih =>
    rintro l ⟨x, hx, hxc⟩ hf
    simp only [popLoop]
    cases hm : popMin l with
    | none =>
      have : l = [] := popMin_eq_none.mp hm
      subst this
      simp at hx
    | some p =>
      obtain ⟨e0, r0⟩ := p
      dsimp only
      obtain ⟨he0m, hsub0, hcase0, hmin0, hlen0⟩ := popMin_spec hm
      by_cases hc : e0.2 ∈ closed
      · rw [if_pos hc]
        apply ih
        · have hne : x ≠ e0 := fun hxe => hxc (hxe ▸ hc)
          rcases hcase0 x hx with rfl | hx0
          · exact absurd rfl hne
          · exact ⟨x, hx0, hxc⟩
        · omega
      · rw [if_neg hc]
        exact ⟨(e0, r0), rfl⟩

/-! ## Helper facts from the invariant -/

theorem InvCore.global_lt {g : Grid} {st : St} (hC : InvCore g st) {v : ℕ} {n : NodeR}
    (h : st.global v = some n) : v < g.W * g.H := by
  obtain ⟨l, _, hiff, _, hlt⟩ := hC.keys
  exact hlt v ((hiff v).mp (by rw [h]; rfl))

theorem InvCore.W_pos {g : Grid} {st : St} (hC : InvCore g st) : 0 < g.W := by
  obtain ⟨n0, hs0, _⟩ := hC.start_mem
  have := hC.global_lt hs0
  by_contra hc
  push_neg at hc
  interval_cases w : g.W
  simp at this

theorem InvCore.H_pos {g : Grid} {st : St} (hC : InvCore g st) : 0 < g.H := by
  obtain ⟨n0, hs0, _⟩ := hC.start_mem
  have := hC.global_lt hs0
  by_contra hc
  push_neg at hc
  interval_cases h : g.H
  simp at this

theorem computeFValue_toReal (g : Grid) (d : Cost) (id : ℕ) :
    (computeFValue g d id).toReal = d.toReal + (g.hOct id).toReal :=
  Cost.toReal_add _ _

/-! ## Preservation of the invariants by one relaxation step -/

theorem relaxEdge_pres {g : Grid} {st : St} (uid i : ℕ) (S : List ℕ)
    (hS : ∀ u ∈ S, u ∈ st.closed)
    (hC : InvCore g st) (hF : Frontier g st S) :
    InvCore g (relaxEdge g uid st i) ∧
    Frontier g (relaxEdge g uid st i) S ∧
    (∀ v n, st.global v = some n → ∃ n', (relaxEdge g uid st i).global v = some n' ∧
      n'.prev = n.prev ∧ n'.birth = n.birth ∧ n'.dist.toReal ≤ n.dist.toReal) ∧
    (∀ v, v ∈ st.closed → (relaxEdge g uid st i).global v = st.global v) ∧
    ((relaxEdge g uid st i).closed = st.closed ∧ st.births ≤ (relaxEdge g uid st i).births ∧
      ∀ x ∈ st.openL, x ∈ (relaxEdge g uid st i).openL) ∧
    (∀ nu, st.global uid = some nu → uid ∈ st.closed → ∀ v, edgeTo g uid i = some v →
      ∃ nv, (relaxEdge g uid st i).global v = some nv ∧
        nv.dist.toReal ≤ (nu.dist + COST i).toReal) := by
  cases he : edgeTo g uid i with
  | none =>
    have hid : relaxEdge g uid st i = st := by simp [relaxEdge, he]
    rw [hid]
    exact ⟨hC, hF, fun v n h => ⟨n, h, rfl, rfl, le_rfl⟩, fun v _ => rfl,
      ⟨rfl, le_rfl, fun x hx => hx⟩,
      fun nu _ _ v hv => Option.noConfusion hv⟩
  | some nid =>
    cases hu : st.global uid with
    | none =>
      have hid : relaxEdge g uid st i = st := by simp [relaxEdge, he, hu]
      rw [hid]
      exact ⟨hC, hF, fun v n h => ⟨n, h, rfl, rfl, le_rfl⟩, fun v _ => rfl,
        ⟨rfl, le_rfl, fun x hx => hx⟩,
        fun nu hnu _ v hv => Option.noConfusion hnu⟩
    | some unode =>
      have hW : 0 < g.W := hC.W_pos
      have huid_lt : uid < g.W * g.H := hC.global_lt hu
      have hne_nid : nid ≠ uid := edgeTo_ne hW huid_lt he
      have hreach : Reaches g g.sID nid (unode.dist + COST i) :=
        Reaches.snoc (hC.dist_path uid unode hu) he
      have hnid_lt : nid < g.W * g.H := edgeTo_valid he
      cases hn : st.global nid with
      | none =>
        -- creation of a fresh node
        have hnc : nid ∉ st.closed := by
          intro hmem
          have := hC.closed_rec nid hmem
          rw [hn] at this
          simp at this
        have hsid_ne : g.sID ≠ nid := by
          obtain ⟨n0, hs0, _⟩ := hC.start_mem
          intro hsn
          rw [hsn, hn] at hs0
          exact Option.noConfusion hs0
        have hpost : relaxEdge g uid st i =
            { st with
              global := fun v => if v = nid then
                  some ⟨unode.dist + COST i, some uid, st.births⟩ else st.global v
              births := st.births + 1
              openL := (computeFValue g (unode.dist + COST i) nid, nid) :: st.openL } := by
          simp [relaxEdge, he, hu, hn]
        rw [hpost]
        obtain ⟨l, hnd, hiff, hlen, hbound⟩ := hC.keys
        have hnidl : nid ∉ l := by
          intro hmem
          have := (hiff nid).mpr hmem
          rw [hn] at this
          simp at this
        refine ⟨⟨?_, ?_, ?_, ?_, ?_, ?_, ?_, ?_, ?_, ?_, ?_⟩, ?_, ?_, ?_, ⟨rfl, by simp, ?_⟩, ?_⟩
        · -- start_mem
          obtain ⟨n0, hs0, hd0⟩ := hC.start_mem
          exact ⟨n0, by simp only [if_neg hsid_ne]; exact hs0, hd0⟩
        · -- keys
          refine ⟨nid :: l, List.nodup_cons.mpr ⟨hnidl, hnd⟩, ?_, by simp [hlen], ?_⟩
          · intro v
            by_cases hv : v = nid
            · subst hv
              simp
            · simp only [if_neg hv, List.mem_cons]
              rw [hiff v]
              constructor
              · exact Or.inr
              · rintro (rfl | h)
                · exact absurd rfl hv
                · exact h
          · intro v hv
            rcases List.mem_cons.mp hv with rfl | hv'
            · exact hnid_lt
            · exact hbound v hv'
        · -- dist_path
          intro v n h
          by_cases hv : v = nid
          · subst hv
            simp only [if_pos rfl] at h
            have := Option.some_injective _ h
            rw [← this]
            exact hreach
          · simp only [if_neg hv] at h
            exact hC.dist_path v n h
        · -- closed_rec
          intro u hmem
          have hne : u ≠ nid := fun h => hnc (h ▸ hmem)
          simp only [if_neg hne]
          exact hC.closed_rec u hmem
        · -- closed_nodup
          exact hC.closed_nodup
        · -- open_rec
          intro e hmem
          rcases List.mem_cons.mp hmem with rfl | hmem
          · refine ⟨⟨unode.dist + COST i, some uid, st.births⟩, by simp, le_rfl⟩
          · obtain ⟨n, hrec, hle⟩ := hC.open_rec e hmem
            have hne : e.2 ≠ nid := by
              intro hen
              rw [hen, hn] at hrec
              exact Option.noConfusion hrec
            exact ⟨n, by simp only [if_neg hne]; exact hrec, hle⟩
        · -- open_cover
          intro v n h hvc
          by_cases hv : v = nid
          · subst hv
            simp only [if_pos rfl] at h
            have := Option.some_injective _ h
            rw [← this]
            exact List.mem_cons_self _ _
          · simp only [if_neg hv] at h
            exact List.mem_cons_of_mem _ (hC.open_cover v n h hvc)
        · -- closed_min
          intro u hmem n h c hr
          have hne : u ≠ nid := fun hh => hnc (hh ▸ hmem)
          simp only [if_neg hne] at h
          exact hC.closed_min u hmem n h c hr
        · -- birth_lt
          intro v n h
          by_cases hv : v = nid
          · subst hv
            simp only [if_pos rfl] at h
            have := Option.some_injective _ h
            rw [← this]
            simp
          · simp only [if_neg hv] at h
            have := hC.birth_lt v n h
            dsimp only
            omega
        · -- prev_ok
          intro v n h p hp
          by_cases hv : v = nid
          · subst hv
            simp only [if_pos rfl] at h
            have hn' := Option.some_injective _ h
            rw [← hn'] at hp
            have hpu : uid = p := by
              have hsp : some uid = some p := hp
              exact Option.some_injective _ hsp
            refine ⟨unode, ?_, ?_⟩
            · rw [← hpu]
              simp only [if_neg (Ne.symm hne_nid)]
              exact hu
            · rw [← hn']
              dsimp only
              exact hC.birth_lt uid unode hu
          · simp only [if_neg hv] at h
            obtain ⟨m, hm, hmb⟩ := hC.prev_ok v n h p hp
            have hpne : p ≠ nid := by
              intro hpn
              rw [hpn, hn] at hm
              exact Option.noConfusion hm
            exact ⟨m, by simp only [if_neg hpne]; exact hm, hmb⟩
        · -- start_prev
          intro n h
          simp only [if_neg hsid_ne] at h
          exact hC.start_prev n h
        · -- Frontier S
          intro u hmem nu hnu i' v' hv'
          have hune : u ≠ nid := fun hh => hnc (hh ▸ hS u hmem)
          simp only [if_neg hune] at hnu
          obtain ⟨nv, hnv, hle⟩ := hF u hmem nu hnu i' v' hv'
          have hvne : v' ≠ nid := by
            intro hh
            rw [hh, hn] at hnv
            exact Option.noConfusion hnv
          exact ⟨nv, by simp only [if_neg hvne]; exact hnv, hle⟩
        · -- records preserved
          intro v n h
          have hvne : v ≠ nid := by
            intro hh
            rw [hh, hn] at h
            exact Option.noConfusion h
          exact ⟨n, by simp only [if_neg hvne]; exact h, rfl, rfl, le_rfl⟩
        · -- closed records untouched
          intro v hmem
          have hvne : v ≠ nid := fun hh => hnc (hh ▸ hmem)
          simp only [if_neg hvne]
        · -- open list superset
          intro x hx
          exact List.mem_cons_of_mem _ hx
        · -- frontier condition for (uid, i)
          intro nu hnu hmem v hv
          have hv' : v = nid := (Option.some_injective _ hv).symm
          subst hv'
          refine ⟨⟨unode.dist + COST i, some uid, st.births⟩, by simp, ?_⟩
          have hne : nu = unode := (Option.some_injective _ hnu).symm
          rw [hne]
      | some onode =>
        by_cases hlt : Cost.ltb (unode.dist + COST i) onode.dist = true
        · -- relaxation: dist lowered, prev kept
          have hnc : nid ∉ st.closed := by
            intro hmem
            have := hC.closed_min nid hmem onode hn _ hreach
            have hlt' := Cost.lt_of_ltb_true hlt
            linarith
          have hsid_ne : g.sID ≠ nid := by
            obtain ⟨n0, hs0, hd0⟩ := hC.start_mem
            intro hsn
            rw [hsn, hn] at hs0
            have : onode = n0 := (Option.some_injective _ hs0.symm).symm
            rw [this, hd0] at hlt
            rw [Cost.ltb_zero] at hlt
            exact Bool.noConfusion hlt
          have hpost : relaxEdge g uid st i =
              { st with
                global := fun v => if v = nid then
                    some ⟨unode.dist + COST i, onode.prev, onode.birth⟩ else st.global v
                openL := (computeFValue g (unode.dist + COST i) nid, nid) :: st.openL } := by
            simp [relaxEdge, he, hu, hn, hlt]
          rw [hpost]
          have hlt' := Cost.lt_of_ltb_true hlt
          obtain ⟨l, hnd, hiff, hlen, hbound⟩ := hC.keys
          refine ⟨⟨?_, ?_, ?_, ?_, ?_, ?_, ?_, ?_, ?_, ?_, ?_⟩, ?_, ?_, ?_,
            ⟨rfl, le_rfl, ?_⟩, ?_⟩
          · -- start_mem
            obtain ⟨n0, hs0, hd0⟩ := hC.start_mem
            exact ⟨n0, by simp only [if_neg hsid_ne]; exact hs0, hd0⟩
          · -- keys
            refine ⟨l, hnd, ?_, hlen, hbound⟩
            intro v
            by_cases hv : v = nid
            · subst hv
              simp only [if_pos rfl]
              constructor
              · intro _
                exact (hiff v).mp (by rw [hn]; rfl)
              · intro _
                rfl
            · simp only [if_neg hv]
              exact hiff v
          · -- dist_path
            intro v n h
            by_cases hv : v = nid
            · subst hv
              simp only [if_pos rfl] at h
              have := Option.some_injective _ h
              rw [← this]
              exact hreach
            · simp only [if_neg hv] at h
              exact hC.dist_path v n h
          · -- closed_rec
            intro u hmem
            have hune : u ≠ nid := fun hh => hnc (hh ▸ hmem)
            simp only [if_neg hune]
            exact hC.closed_rec u hmem
          · exact hC.closed_nodup
          · -- open_rec
            intro e hmem
            rcases List.mem_cons.mp hmem with rfl | hmem
            · exact ⟨⟨unode.dist + COST i, onode.prev, onode.birth⟩, by simp, le_rfl⟩
            · obtain ⟨n, hrec, hle⟩ := hC.open_rec e hmem
              by_cases hv : e.2 = nid
              · have hno : onode = n := by
                  have h1 : st.global nid = some n := by rw [← hv]; exact hrec
                  rw [hn] at h1
                  exact Option.some_injective _ h1
                refine ⟨⟨unode.dist + COST i, onode.prev, onode.birth⟩, ?_, ?_⟩
                · rw [hv]
                  simp
                · rw [computeFValue_toReal] at hle ⊢
                  dsimp only
                  have h2 : (unode.dist + COST i).toReal < n.dist.toReal := by
                    rw [← hno]
                    exact hlt'
                  linarith
              · exact ⟨n, by simp only [if_neg hv]; exact hrec, hle⟩
          · -- open_cover
            intro v n h hvc
            by_cases hv : v = nid
            · subst hv
              simp only [if_pos rfl] at h
              have := Option.some_injective _ h
              rw [← this]
              exact List.mem_cons_self _ _
            · simp only [if_neg hv] at h
              exact List.mem_cons_of_mem _ (hC.open_cover v n h hvc)
          · -- closed_min
            intro u hmem n h c hr
            have hune : u ≠ nid := fun hh => hnc (hh ▸ hmem)
            simp only [if_neg hune] at h
            exact hC.closed_min u hmem n h c hr
          · -- birth_lt
            intro v n h
            by_cases hv : v = nid
            · subst hv
              simp only [if_pos rfl] at h
              have := Option.some_injective _ h
              rw [← this]
              exact hC.birth_lt _ onode hn
            · simp only [if_neg hv] at h
              exact hC.birth_lt v n h
          · -- prev_ok
            intro v n h p hp
            by_cases hv : v = nid
            · rw [hv] at h
              simp only [if_pos rfl] at h
              have hn' : (⟨unode.dist + COST i, onode.prev, onode.birth⟩ : NodeR) = n :=
                Option.some_injective _ h
              rw [← hn'] at hp
              have hp' : onode.prev = some p := hp
              obtain ⟨m, hm, hmb⟩ := hC.prev_ok nid onode hn p hp'
              have hpne : p ≠ nid := by
                intro hpn
                rw [hpn, hn] at hm
                have hmo : onode = m := Option.some_injective _ hm
                rw [← hmo] at hmb
                omega
              refine ⟨m, by simp only [if_neg hpne]; exact hm, ?_⟩
              rw [← hn']
              exact hmb
            · simp only [if_neg hv] at h
              obtain ⟨m, hm, hmb⟩ := hC.prev_ok v n h p hp
              by_cases hpne : p = nid
              · rw [hpne, hn] at hm
                have hmo : onode = m := Option.some_injective _ hm
                rw [← hmo] at hmb
                refine ⟨⟨unode.dist + COST i, onode.prev, onode.birth⟩, ?_, hmb⟩
                rw [hpne]
                simp
              · exact ⟨m, by simp only [if_neg hpne]; exact hm, hmb⟩
          · -- start_prev
            intro n h
            simp only [if_neg hsid_ne] at h
            exact hC.start_prev n h
          · -- Frontier S
            intro u hmem nu hnu i' v' hv'
            have hune : u ≠ nid := fun hh => hnc (hh ▸ hS u hmem)
            simp only [if_neg hune] at hnu
            obtain ⟨nv, hnv, hle⟩ := hF u hmem nu hnu i' v' hv'
            by_cases hvne : v' = nid
            · rw [hvne] at hnv ⊢
              rw [hn] at hnv
              have hno : onode = nv := Option.some_injective _ hnv
              refine ⟨⟨unode.dist + COST i, onode.prev, onode.birth⟩, by simp, ?_⟩
              dsimp only
              rw [← hno] at hle
              linarith
            · exact ⟨nv, by simp only [if_neg hvne]; exact hnv, hle⟩
          · -- records preserved (dist may shrink)
            intro v n h
            by_cases hv : v = nid
            · have hno : onode = n := by
                rw [hv, hn] at h
                exact Option.some_injective _ h
              refine ⟨⟨unode.dist + COST i, onode.prev, onode.birth⟩, ?_, ?_, ?_, ?_⟩
              · rw [hv]
                simp
              · dsimp only
                rw [hno]
              · dsimp only
                rw [hno]
              · dsimp only
                rw [← hno]
                exact le_of_lt hlt'
            · exact ⟨n, by simp only [if_neg hv]; exact h, rfl, rfl, le_rfl⟩
          · -- closed records untouched
            intro v hmem
            have hvne : v ≠ nid := fun hh => hnc (hh ▸ hmem)
            simp only [if_neg hvne]
          · -- open list superset
            intro x hx
            exact List.mem_cons_of_mem _ hx
          · -- frontier condition for (uid, i)
            intro nu hnu hmem v hv
            have hv' : v = nid := (Option.some_injective _ hv).symm
            subst hv'
            refine ⟨⟨unode.dist + COST i, onode.prev, onode.birth⟩, by simp, ?_⟩
            have hne : nu = unode := (Option.some_injective _ hnu).symm
            rw [hne]
        · -- no change: tentative distance not smaller
          have hid : relaxEdge g uid st i = st := by
            simp [relaxEdge, he, hu, hn, hlt]
          rw [hid]
          have hge : onode.dist.toReal ≤ (unode.dist + COST i).toReal := by
            apply Cost.le_of_ltb_false
            cases hb : Cost.ltb (unode.dist + COST i) onode.dist
            · rfl
            · exact absurd hb hlt
          refine ⟨hC, hF, fun v n h => ⟨n, h, rfl, rfl, le_rfl⟩, fun v _ => rfl,
            ⟨rfl, le_rfl, fun x hx => hx⟩, ?_⟩
          intro nu hnu hmem v hv
          have hv' : v = nid := (Option.some_injective _ hv).symm
          subst hv'
          have hne : nu = unode := (Option.some_injective _ hnu).symm
          rw [hne]
          exact ⟨onode, hn, hge⟩

/-! ## Preservation across the whole expansion loop -/

theorem expand_fold_pres {g : Grid} (uid : ℕ) (S : List ℕ) :
    ∀ (L : List ℕ) (st : St), (∀ u ∈ S, u ∈ st.closed) → InvCore g st →
      Frontier g st S → uid ∈ st.closed →
      InvCore g (L.foldl (relaxEdge g uid) st) ∧
      Frontier g (L.foldl (relaxEdge g uid) st) S ∧
      (∀ v n, st.global v = some n → ∃ n', (L.foldl (relaxEdge g uid) st).global v = some n' ∧
        n'.prev = n.prev ∧ n'.birth = n.birth ∧ n'.dist.toReal ≤ n.dist.toReal) ∧
      (∀ v, v ∈ st.closed → (L.foldl (relaxEdge g uid) st).global v = st.global v) ∧
      ((L.foldl (relaxEdge g uid) st).closed = st.closed ∧
        st.births ≤ (L.foldl (relaxEdge g uid) st).births ∧
        (∀ x ∈ st.openL, x ∈ (L.foldl (relaxEdge g uid) st).openL)) ∧
      (∀ i ∈ L, ∀ nu, (L.foldl (relaxEdge g uid) st).global uid = some nu →
        ∀ v, edgeTo g uid i = some v →
        ∃ nv, (L.foldl (relaxEdge g uid) st).global v = some nv ∧
          nv.dist.toReal ≤ (nu.dist + COST i).toReal) := by
  intro L
  induction L with
  | nil =>
    intro st hSc hC hF hu
    exact ⟨hC, hF, fun v n h => ⟨n, h, rfl, rfl, le_rfl⟩, fun v _ => rfl,
      ⟨rfl, le_rfl, fun x hx => hx⟩, fun i hi => absurd hi (List.not_mem_nil i)⟩
  | cons i L ih =>
    intro st hSc hC hF hu
    obtain ⟨hC1, hF1, hmono1, hcl1, ⟨hceq1, hb1, hop1⟩, hcond1⟩ :=
      relaxEdge_pres uid i S hSc hC hF
    have hu1 : uid ∈ (relaxEdge g uid st i).closed := by rw [hceq1]; exact hu
    have hSc1 : ∀ u ∈ S, u ∈ (relaxEdge g uid st i).closed := by
      intro u hu'
      rw [hceq1]
      exact hSc u hu'
    obtain ⟨hC2, hF2, hmono2, hcl2, ⟨hceq2, hb2, hop2⟩, hcond2⟩ :=
      ih (relaxEdge g uid st i) hSc1 hC1 hF1 hu1
    have hceq2' : (L.foldl (relaxEdge g uid) (relaxEdge g uid st i)).closed = st.closed := by
      rw [hceq2, hceq1]
    simp only [List.foldl_cons]
    refine ⟨hC2, hF2, ?_, ?_, ⟨hceq2', ?_, ?_⟩, ?_⟩
    · -- record monotonicity composed
      intro v n h
      obtain ⟨n1, h1, hp1, hb1', hd1⟩ := hmono1 v n h
      obtain ⟨n2, h2, hp2, hb2', hd2⟩ := hmono2 v n1 h1
      exact ⟨n2, h2, by rw [hp2, hp1], by rw [hb2', hb1'], by linarith⟩
    · -- closed records untouched composed
      intro v hv
      have h1 := hcl1 v hv
      have h2 := hcl2 v (by rw [hceq1]; exact hv)
      rw [h2, h1]
    · omega
    · intro x hx
      exact hop2 x (hop1 x hx)
    · -- per-direction relaxation conditions
      intro i' hi' nu hnu v hv
      have huid_rec : (L.foldl (relaxEdge g uid) (relaxEdge g uid st i)).global uid =
          (relaxEdge g uid st i).global uid := hcl2 uid (by rw [hceq1]; exact hu)
      rcases List.mem_cons.mp hi' with rfl | hi'
      · -- the head direction: established by this step, preserved by the rest
        have huid_rec0 : (relaxEdge g uid st i').global uid = st.global uid := hcl1 uid hu
        have hnu_st : st.global uid = some nu := by
          rw [← huid_rec0, ← huid_rec]
          exact hnu
        obtain ⟨nv, hnv, hle⟩ := hcond1 nu hnu_st hu v hv
        obtain ⟨nv2, hnv2, _, _, hd2⟩ := hmono2 v nv hnv
        exact ⟨nv2, hnv2, by linarith⟩
      · exact hcond2 i' hi' nu hnu v hv

/-! ## The popped node is optimal (the A* argument) -/

theorem reach_invariant {g : Grid} {st : St} (hC : InvCore g st)
    (hF : Frontier g st st.closed) :
    ∀ (v : ℕ) (c : Cost), Reaches g g.sID v c →
      (v ∈ st.closed ∧ ∃ nv, st.global v = some nv ∧ nv.dist.toReal ≤ c.toReal) ∨
      (∃ w nw, w ∉ st.closed ∧ st.global w = some nw ∧
        (computeFValue g nw.dist w, w) ∈ st.openL ∧
        nw.dist.toReal + (g.hOct w).toReal ≤ c.toReal + (g.hOct v).toReal) := by
  have hW : 0 < g.W := hC.W_pos
  intro v c hr
  induction hr with
    | refl =>
      obtain ⟨n0, hs0, hd0⟩ := hC.start_mem
      by_cases hs : g.sID ∈ st.closed
      · left
        refine ⟨hs, n0, hs0, ?_⟩
        rw [hd0, Cost.toReal_zero]
      · right
        refine ⟨g.sID, n0, hs, hs0, hC.open_cover _ _ hs0 hs, ?_⟩
        rw [hd0, Cost.toReal_zero]
    | @snoc u v c i hru hedge ih =>
      rcases ih with ⟨huc, nu, hnu, hle⟩ | ⟨w, nw, hwc, hnw, hwo, hwle⟩
      · obtain ⟨nv, hnv, hlv⟩ := hF u huc nu hnu i v hedge
        have hnv_le : nv.dist.toReal ≤ (c + COST i).toReal := by
          rw [Cost.toReal_add]
          rw [Cost.toReal_add] at hlv
          linarith
        by_cases hvc : v ∈ st.closed
        · exact Or.inl ⟨hvc, nv, hnv, hnv_le⟩
        · exact Or.inr ⟨v, nv, hvc, hnv, hC.open_cover _ _ hnv hvc, by linarith⟩
      · right
        refine ⟨w, nw, hwc, hnw, hwo, ?_⟩
        have hcons := hOct_consistent hW hedge
        rw [Cost.toReal_add]
        linarith
theorem pop_optimal {g : Grid} {st : St} (hC : InvCore g st) (hF : Frontier g st st.closed)
    {e : Cost × ℕ} {rest : List (Cost × ℕ)}
    (hpop : popLoop st.closed st.openL.length st.openL = some (e, rest))
    {n : NodeR} (hrec : st.global e.2 = some n) :
    ∀ c : Cost, Reaches g g.sID e.2 c → n.dist.toReal ≤ c.toReal := by
  obtain ⟨hec, hem, hsub, hcase, hmin⟩ := popLoop_spec hpop
  intro c hr
  rcases reach_invariant hC hF e.2 c hr with ⟨hclosed, _⟩ | ⟨w, nw, hwc, hnw, hwo, hwle⟩
  · exact absurd hclosed hec
  · have h1 := hmin _ hwo hwc
    obtain ⟨ne', hne', hle'⟩ := hC.open_rec e hem
    have hne : n = ne' := by
      rw [hrec] at hne'
      exact Option.some_injective _ hne'
    rw [← hne] at hle'
    rw [computeFValue_toReal] at hle' h1
    linarith

theorem closed_length_le {g : Grid} {st : St} (hC : InvCore g st) :
    st.closed.length ≤ g.W * g.H := by
  classical
  have hsub : st.closed.toFinset ⊆ Finset.range (g.W * g.H) := by
    intro v hv
    rw [List.mem_toFinset] at hv
    have hsome := hC.closed_rec v hv
    rw [Finset.mem_range]
    obtain ⟨n, hn⟩ := Option.isSome_iff_exists.mp hsome
    exact hC.global_lt hn
  have hcard := Finset.card_le_card hsub
  rw [Finset.card_range, List.toFinset_card_of_nodup hC.closed_nodup] at hcard
  exact hcard

/-! ## One iteration of the outer loop -/

theorem step_pres {g : Grid} {st : St} (hC : InvCore g st) (hF : Frontier g st st.closed)
    {e : Cost × ℕ} {rest : List (Cost × ℕ)}
    (hpop : popLoop st.closed st.openL.length st.openL = some (e, rest))
    {node : NodeR} (hrec : st.global e.2 = some node) :
    InvCore g { st with openL := rest, closed := e.2 :: st.closed } ∧
    Frontier g { st with openL := rest, closed := e.2 :: st.closed } st.closed := by
  obtain ⟨hec, hem, hsub, hcase, hmin⟩ := popLoop_spec hpop
  refine ⟨⟨?_, ?_, ?_, ?_, ?_, ?_, ?_, ?_, ?_, ?_, ?_⟩, ?_⟩
  · exact hC.start_mem
  · exact hC.keys
  · exact hC.dist_path
  · -- closed_rec
    intro u hu
    rcases List.mem_cons.mp hu with rfl | hu
    · rw [hrec]
      rfl
    · exact hC.closed_rec u hu
  · exact List.nodup_cons.mpr ⟨hec, hC.closed_nodup⟩
  · -- open_rec
    intro e' he'
    exact hC.open_rec e' (hsub e' he')
  · -- open_cover
    intro v n h hv
    have hvc : v ∉ st.closed := fun hh => hv (List.mem_cons_of_mem _ hh)
    have hve : v ≠ e.2 := fun hh => hv (hh ▸ List.mem_cons_self _ _)
    have hx := hC.open_cover v n h hvc
    rcases hcase _ hx hvc with heq | hxr
    · exact absurd (congrArg Prod.snd heq) hve
    · exact hxr
  · -- closed_min
    intro u hu n h c hr
    rcases List.mem_cons.mp hu with rfl | hu
    · have hnn : node = n := by
        rw [hrec] at h
        exact Option.some_injective _ h
      rw [← hnn]
      exact pop_optimal hC hF hpop hrec c hr
    · exact hC.closed_min u hu n h c hr
  · exact hC.birth_lt
  · exact hC.prev_ok
  · exact hC.start_prev
  · exact hF

theorem iter_good {g : Grid} {st : St} (hC : InvCore g st) (hF : Frontier g st st.closed)
    {e : Cost × ℕ} {rest : List (Cost × ℕ)}
    (hpop : popLoop st.closed st.openL.length st.openL = some (e, rest))
    {node : NodeR} (hrec : st.global e.2 = some node) :
    InvCore g (expand g e.2 { st with openL := rest, closed := e.2 :: st.closed }) ∧
    Frontier g (expand g e.2 { st with openL := rest, closed := e.2 :: st.closed })
      (expand g e.2 { st with openL := rest, closed := e.2 :: st.closed }).closed ∧
    (expand g e.2 { st with openL := rest, closed := e.2 :: st.closed }).closed =
      e.2 :: st.closed := by
  simp only [expand]
  obtain ⟨hC1, hF1⟩ := step_pres hC hF hpop hrec
  have hu1 : e.2 ∈ ({ st with openL := rest, closed := e.2 :: st.closed } : St).closed :=
    List.mem_cons_self _ _
  have hSc : ∀ u ∈ st.closed,
      u ∈ ({ st with openL := rest, closed := e.2 :: st.closed } : St).closed :=
    fun u hu => List.mem_cons_of_mem _ hu
  obtain ⟨hC2, hF2, hmono2, hcl2, ⟨hceq2, hb2, hop2⟩, hcond2⟩ :=
    expand_fold_pres e.2 st.closed (List.range 8)
      { st with openL := rest, closed := e.2 :: st.closed } hSc hC1 hF1 hu1
  refine ⟨hC2, ?_, hceq2⟩
  rw [hceq2]
  intro u hu nu hnu i v hv
  rcases List.mem_cons.mp hu with rfl | hu
  · exact hcond2 i (List.mem_range.mpr (edgeTo_lt_eight hv)) nu hnu v hv
  · exact hF2 u hu nu hnu i v hv

/-! ## The outer loop finds the optimal cost (reachable targets) -/

theorem loopA_reach {g : Grid} :
    ∀ (fuel : ℕ) (st : St), InvCore g st → Frontier g st st.closed →
      (∃ c0 : Cost, Reaches g g.sID g.tID c0) → g.tID ∉ st.closed →
      g.W * g.H + 1 ≤ fuel + st.closed.length →
      ∃ (c : Cost) (sol : List (ℤ × ℤ)) (st' : St),
        loopA g fuel st = (.ok (some (c, sol)), st') ∧
        Reaches g g.sID g.tID c ∧
        (∀ c' : Cost, Reaches g g.sID g.tID c' → c.toReal ≤ c'.toReal) := by
  intro fuel
  induction fuel with
  | zero =>
    intro st hC hF hreach htc hlen
    have := closed_length_le hC
    omega
  | succ fuel ih =>
    intro st hC hF hreach htc hlen
    obtain ⟨c0, hr0⟩ := hreach
    have hx : ∃ x ∈ st.openL, x.2 ∉ st.closed := by
      rcases reach_invariant hC hF g.tID c0 hr0 with ⟨hcl, _⟩ | ⟨w, nw, hwc, hnw, hwo, _⟩
      · exact absurd hcl htc
      · exact ⟨_, hwo, hwc⟩
    obtain ⟨x, hxm, hxc⟩ := hx
    have hne' : st.openL.isEmpty = false := by
      cases hl : st.openL with
      | nil => rw [hl] at hxm; simp at hxm
      | cons a tl => rfl
    obtain ⟨⟨e, rest⟩, hpop⟩ := popLoop_isSome ⟨x, hxm, hxc⟩ le_rfl
    obtain ⟨hec, hem, hsub, hcase, hmin⟩ := popLoop_spec hpop
    obtain ⟨node, hrec, _⟩ := hC.open_rec e hem
    by_cases he : e.2 = g.tID
    · refine ⟨node.dist,
        ((rebuildIds ({ st with openL := rest, closed := e.2 :: st.closed } : St).global
          ({ st with openL := rest, closed := e.2 :: st.closed } : St).births
          (some e.2)).reverse.map (g.toXY ·)),
        { st with openL := rest, closed := e.2 :: st.closed }, ?_, ?_, ?_⟩
      · simp only [loopA, hne', hpop, hrec, if_pos he]
        rfl
      · rw [← he]
        exact hC.dist_path e.2 node hrec
      · intro c' hr'
        apply pop_optimal hC hF hpop hrec
        rw [he]
        exact hr'
    · have hiter := iter_good hC hF hpop hrec
      obtain ⟨hC2, hF2, hceq2⟩ := hiter
      have htc2 : g.tID ∉ (expand g e.2
          { st with openL := rest, closed := e.2 :: st.closed }).closed := by
        rw [hceq2]
        intro hmem
        rcases List.mem_cons.mp hmem with heq | hmem'
        · exact he heq.symm
        · exact htc hmem'
      have hlen2 : g.W * g.H + 1 ≤ fuel + (expand g e.2
          { st with openL := rest, closed := e.2 :: st.closed }).closed.length := by
        rw [hceq2]
        simp only [List.length_cons]
        omega
      obtain ⟨c, sol, st', heq, hrc, hmins⟩ :=
        ih (expand g e.2 { st with openL := rest, closed := e.2 :: st.closed })
          hC2 hF2 ⟨c0, hr0⟩ htc2 hlen2
      refine ⟨c, sol, st', ?_, hrc, hmins⟩
      rw [← heq]
      simp only [loopA, hne', hpop, hrec, if_neg he]
      simp

/-! ## The initial state satisfies the invariants -/

theorem inrangeb_pos {g : Grid} {x y : ℤ} (h : g.inrangeb x y = true) : 0 < g.W ∧ 0 < g.H := by
  rw [Grid.inrangeb_iff] at h
  omega

theorem init_good (g : Grid) (hs : g.inrangeb g.sx g.sy = true) :
    InvCore g (initState g) ∧ Frontier g (initState g) (initState g).closed := by
  have hlt : g.sID < g.W * g.H := g.toID_lt hs
  constructor
  · refine ⟨?_, ?_, ?_, ?_, ?_, ?_, ?_, ?_, ?_, ?_, ?_⟩
    · exact ⟨⟨⟨0, 0⟩, none, 0⟩, by simp [initState], rfl⟩
    · refine ⟨[g.sID], by simp, ?_, by simp [initState], ?_⟩
      · intro v
        simp only [initState]
        by_cases hv : v = g.sID
        · subst hv
          simp
        · simp [hv]
      · intro v hv
        rw [List.mem_singleton] at hv
        subst hv
        exact hlt
    · intro v n h
      simp only [initState] at h
      by_cases hv : v = g.sID
      · subst hv
        rw [if_pos rfl] at h
        have := Option.some_injective _ h
        rw [← this]
        exact Reaches.refl
      · rw [if_neg hv] at h
        exact Option.noConfusion h
    · intro u hu
      simp only [initState] at hu
      simp at hu
    · simp [initState]
    · intro e he
      simp only [initState, List.mem_singleton] at he
      subst he
      exact ⟨⟨⟨0, 0⟩, none, 0⟩, by simp [initState], le_rfl⟩
    · intro v n h hv
      simp only [initState] at h ⊢
      by_cases hve : v = g.sID
      · subst hve
        rw [if_pos rfl] at h
        have := Option.some_injective _ h
        rw [← this]
        simp
      · rw [if_neg hve] at h
        exact Option.noConfusion h
    · intro u hu
      simp only [initState] at hu
      simp at hu
    · intro v n h
      simp only [initState] at h ⊢
      by_cases hv : v = g.sID
      · subst hv
        rw [if_pos rfl] at h
        have := Option.some_injective _ h
        rw [← this]
        simp
      · rw [if_neg hv] at h
        exact Option.noConfusion h
    · intro v n h p hp
      simp only [initState] at h
      by_cases hv : v = g.sID
      · subst hv
        rw [if_pos rfl] at h
        have := Option.some_injective _ h
        rw [← this] at hp
        exact Option.noConfusion hp
      · rw [if_neg hv] at h
        exact Option.noConfusion h
    · intro n h
      simp only [initState, if_pos rfl] at h
      have := Option.some_injective _ h
      rw [← this]
  · intro u hu
    simp only [initState] at hu
    simp at hu

/-- **C1.** On every grid whose start cell is in range and whose target is
reachable from the start, `initialize(); solve(...)` returns `true` and
writes to `*optimal` the cost of an actual walk from start to target that
no other walk beats: the true shortest 8-connected path cost. -/
theorem cpu_solve_optimal (g : Grid) (hs : g.inrangeb g.sx g.sy = true)
    (hreach : ∃ c0 : Cost, Reaches g g.sID g.tID c0) :
    ∃ (c : Cost) (sol : List (ℤ × ℤ)),
      solveG g = .ok (some (c, sol)) ∧
      Reaches g g.sID g.tID c ∧
      ∀ c' : Cost, Reaches g g.sID g.tID c' → c.toReal ≤ c'.toReal := by
  obtain ⟨hC0, hF0⟩ := init_good g hs
  obtain ⟨c, sol, st', heq, h1, h2⟩ :=
    loopA_reach (g.W * g.H + 1) (initState g) hC0 hF0 hreach
      (by simp [initState]) (by simp [initState])
  refine ⟨c, sol, ?_, h1, h2⟩
  show (loopA g (g.W * g.H + 1) (initState g)).1 = _
  rw [heq]

/-- Witness for C1 at the 1×1 grid: the hypotheses hold and the solver
returns the optimal cost 0. -/
theorem cpu_solve_optimal_witness :
    grid1.inrangeb grid1.sx grid1.sy = true ∧
    ∃ (c : Cost) (sol : List (ℤ × ℤ)),
      solveG grid1 = .ok (some (c, sol)) ∧
      Reaches grid1 grid1.sID grid1.tID c ∧
      ∀ c' : Cost, Reaches grid1 grid1.sID grid1.tID c' → c.toReal ≤ c'.toReal :=
  ⟨by decide, cpu_solve_optimal grid1 (by decide) ⟨⟨0, 0⟩, Reaches.refl⟩⟩

/-- **C8.** Whenever the start cell equals the target cell, the solver
returns `true`, `*optimal = 0` and `*solution = [start]`. -/
theorem cpu_solve_start_eq_target (g : Grid) (hs : g.inrangeb g.sx g.sy = true)
    (hst : g.sID = g.tID) :
    solveG g = .ok (some (⟨0, 0⟩, [(g.sx, g.sy)])) := by
  have hW : 0 < g.W := (inrangeb_pos hs).1
  have hne' : (initState g).openL.isEmpty = false := rfl
  have hpop : popLoop (initState g).closed (initState g).openL.length (initState g).openL =
      some ((computeFValue g ⟨0, 0⟩ g.sID, g.sID), []) := rfl
  have hrec : (initState g).global g.sID = some ⟨⟨0, 0⟩, none, 0⟩ := by
    simp [initState]
  have hxy : g.toXY g.sID = (g.sx, g.sy) := g.toXY_toID hW hs
  show (loopA g (g.W * g.H + 1) (initState g)).1 = _
  simp only [loopA, hne', hpop, hrec, if_pos hst]
  simp only [rebuildIds, hrec]
  simp [hxy]

/-- Witness for C8 at the 1×1 grid (scenario S4). -/
theorem cpu_solve_start_eq_target_witness :
    grid1.inrangeb grid1.sx grid1.sy = true ∧ grid1.sID = grid1.tID ∧
    solveG grid1 = .ok (some (⟨0, 0⟩, [(grid1.sx, grid1.sy)])) :=
  ⟨by decide, rfl, cpu_solve_start_eq_target grid1 (by decide) rfl⟩

/-! ## Final state invariants and predecessor chains -/

theorem loopA_final_inv {g : Grid} :
    ∀ (fuel : ℕ) (st : St), InvCore g st → Frontier g st st.closed →
      InvCore g (loopA g fuel st).2 := by
  intro fuel
  induction fuel with
  | zero =>
    intro st hC hF
    exact hC
  | succ fuel ih =>
    intro st hC hF
    simp only [loopA]
    by_cases hne : st.openL.isEmpty = true
    · rw [if_pos hne]
      exact hC
    · rw [if_neg hne]
      cases hpop : popLoop st.closed st.openL.length st.openL with
      | none => exact hC
      | some p =>
        obtain ⟨e, rest⟩ := p
        dsimp only
        obtain ⟨hec, hem, hsub, hcase, hmin⟩ := popLoop_spec hpop
        cases hrec : st.global e.2 with
        | none =>
          exfalso
          obtain ⟨n, hn, _⟩ := hC.open_rec e hem
          rw [hrec] at hn
          exact Option.noConfusion hn
        | some node =>
          dsimp only
          by_cases he : e.2 = g.tID
          · rw [if_pos he]
            exact (step_pres hC hF hpop hrec).1
          · rw [if_neg he]
            obtain ⟨hC2, hF2, _⟩ := iter_good hC hF hpop hrec
            exact ih _ hC2 hF2

theorem births_le {g : Grid} {st : St} (hC : InvCore g st) : st.births ≤ g.W * g.H := by
  classical
  obtain ⟨l, hnd, hiff, hlen, hbound⟩ := hC.keys
  have hsub : l.toFinset ⊆ Finset.range (g.W * g.H) := by
    intro v hv
    rw [List.mem_toFinset] at hv
    rw [Finset.mem_range]
    exact hbound v hv
  have hcard := Finset.card_le_card hsub
  rw [Finset.card_range, List.toFinset_card_of_nodup hnd] at hcard
  omega

theorem rebuildIds_none (global : ℕ → Option NodeR) (fuel : ℕ) :
    rebuildIds global fuel none = [] := by
  cases fuel <;> rfl

theorem rebuild_bound {global : ℕ → Option NodeR}
    (hp : ∀ v n, global v = some n → ∀ p, n.prev = some p →
      ∃ m, global p = some m ∧ m.birth < n.birth) :
    ∀ (k : ℕ) (v : ℕ) (n : NodeR), global v = some n → n.birth < k →
      ∀ fuel, n.birth + 1 ≤ fuel →
        (rebuildIds global fuel (some v)).length ≤ n.birth + 1 ∧
        rebuildIds global fuel (some v) = rebuildIds global (n.birth + 1) (some v) := by
  intro k
  induction k with
  | zero =>
    intro v n _ hb
    omega
  | succ k ih =>
    intro v n hv hb fuel hf
    obtain ⟨f, rfl⟩ : ∃ f, fuel = f + 1 := ⟨fuel - 1, by omega⟩
    obtain ⟨b, hbeq⟩ : ∃ b, n.birth + 1 = b + 1 := ⟨n.birth, rfl⟩
    simp only [rebuildIds, hv]
    cases hprev : n.prev with
    | none =>
      constructor
      · simp only [rebuildIds_none, List.length_cons, List.length_nil]
        omega
      · simp only [rebuildIds_none]
    | some p =>
      obtain ⟨m, hm, hmb⟩ := hp v n hv p hprev
      have ihm := ih p m hm (by omega) f (by omega)
      have ihm2 := ih p m hm (by omega) n.birth (by omega)
      constructor
      · simp only [List.length_cons]
        have h1 := ihm.1
        omega
      · rw [ihm.2, ihm2.2]

/-- Immutability of `prev` and `birth`: a relaxation step never changes
the predecessor or the creation rank of an existing record (the relax
branch of the source updates only `dist`). -/
theorem relaxEdge_prev_immutable (g : Grid) (uid i v : ℕ) (st : St) (n n' : NodeR)
    (h : st.global v = some n) (h' : (relaxEdge g uid st i).global v = some n') :
    n'.prev = n.prev ∧ n'.birth = n.birth := by
  cases he : edgeTo g uid i with
  | none =>
    simp only [relaxEdge, he] at h'
    rw [h] at h'
    have heq := Option.some_injective _ h'
    rw [← heq]
    exact ⟨rfl, rfl⟩
  | some nid =>
    cases hu : st.global uid with
    | none =>
      simp only [relaxEdge, he, hu] at h'
      rw [h] at h'
      have heq := Option.some_injective _ h'
      rw [← heq]
      exact ⟨rfl, rfl⟩
    | some unode =>
      cases hn : st.global nid with
      | none =>
        simp only [relaxEdge, he, hu, hn] at h'
        by_cases hv : v = nid
        · rw [hv, hn] at h
          exact Option.noConfusion h
        · rw [if_neg hv, h] at h'
          have heq := Option.some_injective _ h'
          rw [← heq]
          exact ⟨rfl, rfl⟩
      | some onode =>
        simp only [relaxEdge, he, hu, hn] at h'
        by_cases hlt : Cost.ltb (unode.dist + COST i) onode.dist = true
        · rw [if_pos hlt] at h'
          by_cases hv : v = nid
          · have hno : onode = n := by
              rw [hv, hn] at h
              exact Option.some_injective _ h
            dsimp only at h'
            rw [if_pos hv] at h'
            have heq := Option.some_injective _ h'
            rw [← heq, ← hno]
            exact ⟨rfl, rfl⟩
          · dsimp only at h'
            rw [if_neg hv, h] at h'
            have heq := Option.some_injective _ h'
            rw [← heq]
            exact ⟨rfl, rfl⟩
        · rw [if_neg hlt] at h'
          rw [h] at h'
          have heq := Option.some_injective _ h'
          rw [← heq]
          exact ⟨rfl, rfl⟩

/-- **C10.** Predecessor links are written only at node creation (the
relax branch leaves `prev` and `birth` unchanged), always point at a
strictly earlier record, the start record keeps `prev = none`, and hence
in the final state the reconstruction walk from any record visits at most
`N = W*H` nodes. -/
theorem cpu_prev_chain (g : Grid) (hs : g.inrangeb g.sx g.sy = true) :
    (∀ (st : St) (uid i v : ℕ) (n n' : NodeR), st.global v = some n →
      (relaxEdge g uid st i).global v = some n' → n'.prev = n.prev ∧ n'.birth = n.birth) ∧
    (∀ v n, (solveFull g).2.global v = some n → ∀ p, n.prev = some p →
      ∃ m, (solveFull g).2.global p = some m ∧ m.birth < n.birth) ∧
    (∀ n, (solveFull g).2.global g.sID = some n → n.prev = none) ∧
    (solveFull g).2.births ≤ g.W * g.H ∧
    (∀ v n, (solveFull g).2.global v = some n →
      (rebuildIds (solveFull g).2.global (solveFull g).2.births (some v)).length ≤
        g.W * g.H) := by
  obtain ⟨hC0, hF0⟩ := init_good g hs
  have hCf : InvCore g (solveFull g).2 :=
    loopA_final_inv (g.W * g.H + 1) (initState g) hC0 hF0
  refine ⟨fun st uid i v n n' h h' => relaxEdge_prev_immutable g uid i v st n n' h h',
    hCf.prev_ok, hCf.start_prev, births_le hCf, ?_⟩
  intro v n hv
  have hb := hCf.birth_lt v n hv
  have hble := births_le hCf
  have hlen := (rebuild_bound hCf.prev_ok (n.birth + 1) v n hv (by omega)
    (solveFull g).2.births (by omega)).1
  omega

/-- Witness for C10 at the 1×1 grid. -/
theorem cpu_prev_chain_witness :
    grid1.inrangeb grid1.sx grid1.sy = true ∧
    ((∀ (st : St) (uid i v : ℕ) (n n' : NodeR), st.global v = some n →
      (relaxEdge grid1 uid st i).global v = some n' →
        n'.prev = n.prev ∧ n'.birth = n.birth) ∧
    (∀ v n, (solveFull grid1).2.global v = some n → ∀ p, n.prev = some p →
      ∃ m, (solveFull grid1).2.global p = some m ∧ m.birth < n.birth) ∧
    (∀ n, (solveFull grid1).2.global grid1.sID = some n → n.prev = none) ∧
    (solveFull grid1).2.births ≤ grid1.W * grid1.H ∧
    (∀ v n, (solveFull grid1).2.global v = some n →
      (rebuildIds (solveFull grid1).2.global (solveFull grid1).2.births (some v)).length ≤
        grid1.W * grid1.H)) :=
  ⟨by decide, cpu_prev_chain grid1 (by decide)⟩

/-- **C5.** `computeFValue` is `g + h` where `h` is the octile distance
`min(dx,dy)·√2 + |dx − dy|` to the target, and `h` never exceeds the cost
of any walk to the target (admissibility). -/
theorem computeFValue_octile_admissible (g : Grid) (hW : 0 < g.W)
    (ht : g.inrangeb g.ex g.ey = true) :
    (∀ (d : Cost) (id : ℕ), computeFValue g d id = d + g.hOct id) ∧
    (∀ id : ℕ, (g.hOct id).toReal =
      ((min ((g.toXY id).1 - g.ex).natAbs ((g.toXY id).2 - g.ey).natAbs : ℕ) : ℝ) *
        Real.sqrt 2 +
      |((((g.toXY id).1 - g.ex).natAbs : ℕ) : ℝ) - ((((g.toXY id).2 - g.ey).natAbs : ℕ) : ℝ)|) ∧
    (∀ (u : ℕ) (c : Cost), Reaches g u g.tID c → (g.hOct u).toReal ≤ c.toReal) := by
  refine ⟨fun d id => rfl, ?_, fun u c h => hOct_admissible hW ht h⟩
  intro id
  rw [Grid.hOct, octile_toReal]
  push_cast
  ring

/-- Witness for C5 at the 1×1 grid. -/
theorem computeFValue_octile_admissible_witness :
    0 < grid1.W ∧ grid1.inrangeb grid1.ex grid1.ey = true ∧
    ((∀ (d : Cost) (id : ℕ), computeFValue grid1 d id = d + grid1.hOct id) ∧
    (∀ id : ℕ, (grid1.hOct id).toReal =
      ((min ((grid1.toXY id).1 - grid1.ex).natAbs ((grid1.toXY id).2 - grid1.ey).natAbs :
        ℕ) : ℝ) * Real.sqrt 2 +
      |((((grid1.toXY id).1 - grid1.ex).natAbs : ℕ) : ℝ) -
        ((((grid1.toXY id).2 - grid1.ey).natAbs : ℕ) : ℝ)|) ∧
    (∀ (u : ℕ) (c : Cost), Reaches grid1 u grid1.tID c →
      (grid1.hOct u).toReal ≤ c.toReal)) :=
  ⟨by decide, by decide, computeFValue_octile_admissible grid1 (by decide) (by decide)⟩

/-- **C6.** `Pathway::output` returns `false` exactly when both solvers
have run and either their success flags differ or `float_equal` rejects
the two optimal costs; in every other case it returns `true`. -/
theorem pathwayOutput_false_iff (feq : ℝ → ℝ → Bool)
    (cpuSolved gpuSolved cpuSuccessful gpuSuccessful : Bool)
    (cpuOptimal gpuOptimal : ℝ) :
    pathwayOutput feq cpuSolved gpuSolved cpuSuccessful gpuSuccessful cpuOptimal gpuOptimal
        = false ↔
      (cpuSolved = true ∧ gpuSolved = true ∧
        (cpuSuccessful ≠ gpuSuccessful ∨ feq cpuOptimal gpuOptimal = false)) := by
  cases cpuSolved <;> cases gpuSolved <;> cases cpuSuccessful <;> cases gpuSuccessful <;>
    cases hf : feq cpuOptimal gpuOptimal <;> simp [pathwayOutput, hf]

/-- **C7 (amended).** Constructing the `Pathway` problem is a fatal
configuration error exactly when the `width` or `height` option is
missing; present values are stored without a positivity check. -/
theorem pathwayCtor_none_iff (w h : Option ℤ) :
    pathwayCtor w h = none ↔ (w = none ∨ h = none) := by
  cases w <;> cases h <;> simp [pathwayCtor]

/-- **C7 counterexample.** A configuration with `width = 0` (invalid per
the claim: not a positive integer) is accepted by the constructor rather
than rejected as a fatal error. -/
theorem pathwayCtor_accepts_nonpositive :
    pathwayCtor (some 0) (some 5) = some (0, 5) ∧ ¬ (0 : ℤ) > 0 := by
  exact ⟨rfl, by norm_num⟩

/-- **C2 (failing).** On `gridPrevBug` the cell `(2,0)` (id 2) has final
`g = 2` — it was relaxed through `(1,0)` — yet its predecessor is still
`(1,1)` (id 4, the node that first discovered it), whose `g = √2` plus
the connecting diagonal step cost √2 gives `2√2 ≠ 2`: the relaxation does
not update the predecessor and the claimed invariant fails. -/
theorem cpu_relax_keeps_old_prev :
    (solveFull gridPrevBug).2.global 2 = some ⟨⟨2, 0⟩, some 4, 3⟩ ∧
    (solveFull gridPrevBug).2.global 4 = some ⟨⟨0, 1⟩, some 0, 2⟩ ∧
    edgeTo gridPrevBug 4 5 = some 2 ∧
    (⟨0, 1⟩ : Cost) + COST 5 ≠ (⟨2, 0⟩ : Cost) := by
  decide

/-- **C3 (failing).** On `gridPrevBug` the solver returns
`*optimal = 6 + √2` but the path written to `*solution` has total step
cost `4 + 3√2`; the difference `2√2 − 2 ≈ 0.83` is far beyond any
floating-point tolerance. -/
theorem cpu_solution_cost_mismatch :
    solveG gridPrevBug = .ok (some (⟨6, 1⟩,
      [(0, 0), (1, 1), (2, 0), (2, 1), (2, 2), (2, 3), (2, 4), (1, 5)])) ∧
    pathCostCoords [(0, 0), (1, 1), (2, 0), (2, 1), (2, 2), (2, 3), (2, 4), (1, 5)] =
      ⟨4, 3⟩ ∧
    (⟨4, 3⟩ : Cost) ≠ (⟨6, 1⟩ : Cost) ∧
    Cost.toReal ⟨4, 3⟩ - Cost.toReal ⟨6, 1⟩ > 1 / 2 := by
  refine ⟨by decide, by decide, by decide, ?_⟩
  have h54 : (5 / 4 : ℝ) < Real.sqrt 2 := (Real.lt_sqrt (by norm_num)).mpr (by norm_num)
  simp only [Cost.toReal]
  push_cast
  nlinarith

theorem reach_subset {g : Grid} (S : List ℕ) (hs : g.sID ∈ S)
    (hstep : ∀ u ∈ S, ∀ i v, edgeTo g u i = some v → v ∈ S) :
    ∀ (v : ℕ) (c : Cost), Reaches g g.sID v c → v ∈ S := by
  intro v c h
  induction h with
  | refl => exact hs
  | @snoc u v c i hr he ih => exact hstep u ih i v he

theorem gridStale_no_path : ¬ ∃ c : Cost, Reaches gridStale gridStale.sID gridStale.tID c := by
  rintro ⟨c, hr⟩
  have key := reach_subset [0, 1, 4, 2] (by decide) ?_ gridStale.tID c hr
  · revert key
    decide
  · intro u hu i v he
    have h8 := edgeTo_lt_eight he
    fin_cases hu <;> interval_cases i <;>
      first
        | exact Option.noConfusion he
        | (have hv := Option.some_injective _ he
           rw [← hv]
           decide)

/-- **C4 (failing).** On `gridStale` the start and the target are
disconnected, yet the solver does not return `false`: after the last
reachable cell `(2,0)` is closed, the open list still holds its one stale
duplicate entry, the outer loop re-enters, and the inner pop loop reads
the top of the now-empty heap — undefined behaviour in the C++ code,
modelled as the `.ub` result. -/
theorem cpu_pops_empty_heap :
    (¬ ∃ c : Cost, Reaches gridStale gridStale.sID gridStale.tID c) ∧
    solveG gridStale = .ub :=
  ⟨gridStale_no_path, by decide⟩
